import Mathlib

/-!
# Verification of `intrahost.py`'s `merge_to_vcf` (viral-ngs)

A shallow embedding of the VCF-merging logic of `src/intrahost.py`
(`merge_to_vcf`, lines 185-405) together with proofs about it.

Modelling conventions:

* Python strings are Lean `String`s; Python string slicing, indexing and
  case conversion are re-implemented below with Python's exact semantics
  (negative indices, clamping of slice bounds, ASCII upper-casing).
* Python `dict`s are association lists in insertion order (`Dict` below):
  `dInsert` overwrites the value of an existing key in place and appends
  new keys at the end, exactly like CPython dict assignment.
* Python `float` arithmetic on read-count fractions is modelled by exact
  fractions (`Frac` below, an unreduced numerator/denominator pair with a
  positive denominator).  All fractions arising in `merge_to_vcf` are
  ratios and sums of ratios of small read counts, for which float
  arithmetic is exact or ties are decided identically, so this is a
  faithful model of the orderings and sums the code computes.
* `Python sorted(...)` is a stable sort; it is modelled by
  `List.insertionSort`, which is stable for the `≤`-style relations used
  here, hence produces the identical permutation.
* Exceptions are modelled by `Except String`: any uncaught Python
  exception is an `Except.error`, which propagates and aborts the run.
* The external collaborators that are not part of `src/` are modelled as
  inputs: the `CoordMapper` of `interhost.py` becomes an abstract `CMap`
  (a pair of partial maps plus the sample-side chromosome name), parsed
  tab files become lists of pre-parsed `RawRow`s (the columns
  `merge_to_vcf` reads: chrom, pos, alt, ref, and `allele:fwd:rev`
  triples with natural-number counts), and the indexed consensus FASTA of
  a sample becomes its sequence string.
* Sample names are assumed distinct (Python builds `dict(zip(samples,...))`,
  which collapses duplicate names; lists with `find?` model the
  distinct-name case, the only one the tool supports).
-/

namespace Intrahost

/-! ## Python strings -/

/-- ASCII upper-casing of a character, as Python `str.upper` does for the
alphabet characters that can occur in FASTA/vphaser data. -/
def chUpper (c : Char) : Char :=
  if 'a' ≤ c ∧ c ≤ 'z' then Char.ofNat (c.toNat - 32) else c

/-- Python `s.upper()`. -/
def strUpper (s : String) : String := ⟨s.data.map chUpper⟩

/-- First-character test, Python `s.startswith(c)` for a one-character `c`. -/
def startsWithCh (s : String) (c : Char) : Bool :=
  match s.data with
  | [] => false
  | c' :: _ => c' = c

/-- Normalization of one bound of a Python slice `s[i:j]`:
negative indices count from the end, then the bound is clamped to `[0, n]`. -/
def pyBound (n : Nat) (i : Int) : Nat :=
  if i < 0 then (max (i + n) 0).toNat else min i.toNat n

/-- Python string slice `s[i:j]`. -/
def pySlice (s : String) (i j : Int) : String :=
  ⟨(s.data.drop (pyBound s.length i)).take (pyBound s.length j - pyBound s.length i)⟩

/-- Python string slice `s[i:]`. -/
def pySliceFrom (s : String) (i : Int) : String := pySlice s i s.length

/-- Python string indexing `s[i]`: negative indices wrap once; out-of-range
is an `IndexError`, modelled by `none`. -/
def pyGet (s : String) (i : Int) : Option Char :=
  let i' := if i < 0 then i + s.length else i
  if i' < 0 then none else s.data.get? i'.toNat

/-- Python list-of-chars assignment `l[i] = c` (after `list(s)`), `none` on
`IndexError`. -/
def pySet (s : String) (i : Int) (c : Char) : Option String :=
  let i' := if i < 0 then i + s.length else i
  if i' < 0 then none
  else if i'.toNat < s.data.length then some ⟨s.data.set i'.toNat c⟩ else none

/-- Python `int(s)` for the digit strings that follow a `D` in a deletion
allele token; non-digit strings raise, modelled by `none`. -/
def parseNat? (s : String) : Option Nat :=
  if s.data ≠ [] ∧ s.data.all Char.isDigit then
    some (s.data.foldl (fun n c => n * 10 + (c.toNat - 48)) 0)
  else none

/-- Python `s.endswith(suff)`: a list equality on the last
`len(suff)` characters (false whenever `suff` is longer than `s`). -/
def strEndsWith (s suff : String) : Bool :=
  s.data.drop (s.data.length - suff.data.length) == suff.data

/-- Lexicographic `≤` on code points, Python string comparison. -/
def strLeB : List Char → List Char → Bool
  | [], _ => true
  | _ :: _, [] => false
  | a :: as, b :: bs => if a = b then strLeB as bs else decide (a < b)

/-- Python `s1 <= s2` on strings. -/
def strLe (a b : String) : Prop := strLeB a.data b.data = true

instance : DecidableRel strLe := fun a b => by unfold strLe; infer_instance

/-! ## Exact fractions standing in for Python floats -/

/-- An unreduced fraction with a positive denominator.  Stands in for the
Python `float` values `n/tot` (read-count fractions) and their sums. -/
structure Frac where
  num : Int
  den : Int
  den_pos : 0 < den

theorem Frac.ext_iff' {x y : Frac} : x = y ↔ x.num = y.num ∧ x.den = y.den := by
  cases x; cases y; simp

instance : DecidableEq Frac := fun x y =>
  decidable_of_iff (x.num = y.num ∧ x.den = y.den) Frac.ext_iff'.symm

instance : Repr Frac := ⟨fun x _ => repr (x.num, x.den)⟩

/-- The fraction `n / tot` (Python `float(n)/tot_n`). -/
def Frac.ofCounts (n tot : Nat) (h : ¬ tot = 0) : Frac :=
  ⟨n, tot, by exact_mod_cast Nat.pos_of_ne_zero h⟩

/-- Python float `0.0`. -/
def Frac.zero : Frac := ⟨0, 1, by decide⟩

/-- Python float `1.0`. -/
def Frac.one : Frac := ⟨1, 1, by decide⟩

/-- Exact addition of fractions. -/
def Frac.add (x y : Frac) : Frac :=
  ⟨x.num * y.den + y.num * x.den, x.den * y.den, mul_pos x.den_pos y.den_pos⟩

/-- `x < y` as rational numbers (Python float `<`). -/
def Frac.lt (x y : Frac) : Prop := x.num * y.den < y.num * x.den

/-- `x = y` as rational numbers (Python float `==`). -/
def Frac.ratEq (x y : Frac) : Prop := x.num * y.den = y.num * x.den

instance : DecidableRel Frac.lt := fun x y => by unfold Frac.lt; infer_instance
instance : DecidableRel Frac.ratEq := fun x y => by unfold Frac.ratEq; infer_instance

/-- `0.5 < f`, Python `f > 0.5`. -/
def Frac.gtHalf (f : Frac) : Prop := Frac.lt ⟨1, 2, by decide⟩ f

instance : DecidablePred Frac.gtHalf := fun f => by unfold Frac.gtHalf; infer_instance

/-- The rational value of a fraction, used in specifications and proofs. -/
def Frac.val (x : Frac) : ℚ := (x.num : ℚ) / (x.den : ℚ)

/-- Python `sum(iterable)` over floats, starting from `0.0`. -/
def fsum (l : List Frac) : Frac := l.foldl Frac.add Frac.zero

/-! ## Python dicts as insertion-ordered association lists -/

/-- A Python dict with string keys. -/
abbrev Dict (α : Type) := List (String × α)

/-- `d.get(k)` / `d[k]`. -/
def dGet {α : Type} : Dict α → String → Option α
  | [], _ => none
  | (k', v) :: rest, k => if k' = k then some v else dGet rest k

/-- Assignment `d[k] = v`: overwrites in place, appends new keys at the end. -/
def dInsert {α : Type} : Dict α → String → α → Dict α
  | [], k, v => [(k, v)]
  | (k', v') :: rest, k, v =>
    if k' = k then (k, v) :: rest else (k', v') :: dInsert rest k v

/-- `del d[k]`. -/
def dDel {α : Type} : Dict α → String → Dict α
  | [], _ => []
  | (k', v') :: rest, k => if k' = k then dDel rest k else (k', v') :: dDel rest k

/-- `sum(d.values())` for a dict of counts. -/
def dTotal (d : Dict Nat) : Nat := (d.map (·.2)).sum

/-- `util.misc.unique` (not under `src/`).  Modelled from the spec:
the deduplicated list keeping the first occurrence of each element. -/
def pyUniqueAux (seen : List String) : List String → List String
  | [] => []
  | a :: l => if a ∈ seen then pyUniqueAux seen l else a :: pyUniqueAux (a :: seen) l

/-- Deduplication keeping first occurrences; see `pyUniqueAux`. -/
def pyUnique (l : List String) : List String := pyUniqueAux [] l

/-- `util.misc.histogram` (not under `src/`).  Modelled from the spec:
the count of occurrences of each distinct value, keys in first-encounter
order (`collections.Counter`-like dict). -/
def histogram (l : List String) : Dict Nat :=
  l.foldl (fun d a => dInsert d a ((dGet d a).getD 0 + 1)) []

/-! ## Error monad helpers (Python exception propagation) -/

/-- Map a fallible function over a list, stopping at the first exception,
as a Python `for` loop does. -/
def mapE {α β : Type} (f : α → Except String β) : List α → Except String (List β)
  | [] => .ok []
  | x :: xs =>
    match f x with
    | .error e => .error e
    | .ok y =>
      match mapE f xs with
      | .error e => .error e
      | .ok ys => .ok (y :: ys)

/-- Whether a run completed without an exception. -/
def exceptIsOk {α : Type} : Except String α → Bool
  | .ok _ => true
  | .error _ => false

instance {α : Type} [DecidableEq α] : DecidableEq (Except String α)
  | .ok a, .ok b => decidable_of_iff (a = b) (by simp)
  | .ok _, .error _ => isFalse (by simp)
  | .error _, .ok _ => isFalse (by simp)
  | .error e, .error f => decidable_of_iff (e = f) (by simp)

/-! ## Data model -/

/-- The `CoordMapper` collaborator (interhost.py, not under `src/`), as
`merge_to_vcf` uses it for one reference chromosome: `sChrom` is
`mapBtoA(ref_sequence.id)`, the sample-side chromosome name; `mapAtoB p side`
is `mapAtoB(s_chrom, p, side)[1]` (`none` = no corresponding reference
position); `mapBtoA p side` is `mapBtoA(ref_id, p, side)[1]`. -/
structure CMap where
  sChrom : String
  mapAtoB : Int → Int → Option Int
  mapBtoA : Int → Int → Option Int

/-- One parsed line of a sample's vphaser output tab file, the columns
`merge_to_vcf` reads: `row[0]`, `int(row[1])`, `row[2]`, `row[3]` and the
`allele:fwd:rev` triples of `row[9:]`. -/
structure RawRow where
  chrom : String
  s_pos : Int
  s_alt : String
  s_ref : String
  alleles : List (String × Nat × Nat)
deriving Repr, DecidableEq

/-- One sample together with its inputs: coordinate mapper, consensus
assembly sequence for this chromosome, and parsed isnv rows. -/
structure SampleData where
  name : String
  cmap : CMap
  cons : String
  rows : List RawRow

/-- The per-row dict built at intrahost.py:231-253 after repositioning and
coordinate mapping: sample, (possibly shifted) sample-local position, raw
alt token, allele counts sorted by descending total count, and the mapped
reference interval. -/
structure PRow where
  sample : String
  s_pos : Int
  s_alt : String
  allele_counts : List (String × Nat)
  posRef : Int
  endRef : Int
deriving Repr, DecidableEq

/-- The data of one emitted VCF row, with the intermediate per-site values
(`consAlleles`, `samp_offsets`, `iSNVs`, the two secondary allele lists)
retained so that properties can be stated about them.  `freqs` holds, per
sample, `None` for samples absent from `iSNVs` and otherwise the list
`[iSNVs[s].get(a, 0.0) for a in alleles[1:]]`; `afFields` holds what the
`','.join(...) or '.'` idiom actually emits (`none` = the literal `.`). -/
structure SiteOut where
  chrom : String
  pos : Int
  endPos : Int
  refA : String
  consA : Dict String
  offsets : Dict Int
  isnvs : Dict (Dict Frac)
  consPairs : List (String × Nat)
  isnvTuples : List (Nat × Frac × String)
  alleles : List String
  genos : List (Option Nat)
  freqs : List (Option (List Frac))
  afFields : List (Option (List Frac))
deriving Repr, DecidableEq

/-! ## Row preprocessing (intrahost.py:227-253) -/

/-- `sorted(..., key=lambda x: x[1], reverse=True)`: stable descending sort
by count. -/
def sortCountDesc (l : List (String × Nat)) : List (String × Nat) :=
  List.insertionSort (fun x y => y.2 ≤ x.2) l

/-- intrahost.py:243-246: in a row whose alt token is a deletion, every
allele token must start with `D` or `i`.  (`a[0]` on an empty token is an
`IndexError`.) -/
def checkDelAlleles : List (String × Nat) → Except String Unit
  | [] => .ok ()
  | (a, _) :: rest =>
    match a.data with
    | [] => .error "IndexError"
    | c :: _ =>
      if c = 'D' ∨ c = 'i' then checkDelAlleles rest
      else .error "deletion alleles must always start with D or i"

/-- intrahost.py:231-253 for one row already known to be on this chromosome:
build the sorted allele-count list, reposition a deletion row one base to
the left, and map the (possibly shifted) sample-local position to the
reference with both rounding sides; a missing correspondence is fatal. -/
def prepRow (cm : CMap) (s : String) (r : RawRow) : Except String PRow :=
  let ac := sortCountDesc (r.alleles.map (fun x => (x.1, x.2.1 + x.2.2)))
  let checked : Except String Int :=
    if startsWithCh r.s_alt 'D' then
      match checkDelAlleles ac with
      | .error e => .error e
      | .ok _ => .ok (r.s_pos - 1)
    else .ok r.s_pos
  match checked with
  | .error e => .error e
  | .ok spos =>
    match cm.mapAtoB spos (-1), cm.mapAtoB spos 1 with
    | some p, some e => .ok ⟨s, spos, r.s_alt, ac, p, e⟩
    | _, _ => .error "consensus extends beyond start or end of reference."

/-- intrahost.py:226-253: all samples' rows for this chromosome, in sample
order then file order. -/
def gatherRows : List SampleData → Except String (List PRow)
  | [] => .ok []
  | sd :: rest =>
    match mapE (prepRow sd.cmap sd.name) (sd.rows.filter (fun r => r.chrom = sd.cmap.sChrom)) with
    | .error e => .error e
    | .ok mine =>
      match gatherRows rest with
      | .error e => .error e
      | .ok others => .ok (mine ++ others)

/-- intrahost.py:256: `sorted(data, key=lambda row: row['POS'])`. -/
def sortRows (l : List PRow) : List PRow :=
  List.insertionSort (fun x y => x.posRef ≤ y.posRef) l

/-- intrahost.py:257: `itertools.groupby` on the (sorted) rows — groups of
adjacent rows with equal reference position. -/
def groupRows : List PRow → List (Int × List PRow)
  | [] => []
  | r :: rest =>
    match groupRows rest with
    | [] => [(r.posRef, [r])]
    | (p, g) :: gs =>
      if r.posRef = p then (p, r :: g) :: gs else (r.posRef, [r]) :: (p, g) :: gs

/-! ## Per-site processing (intrahost.py:260-399) -/

/-- `samp_to_cmap[s]` etc.: look a sample up by name. -/
def findSample (sds : List SampleData) (s : String) : Option SampleData :=
  sds.find? (fun sd => sd.name = s)

/-- intrahost.py:267-276: extend the site's end past every deletion allele
of one row; an unmappable deletion endpoint is fatal. -/
def extendDel (sds : List SampleData) (row : PRow) : Int → List (String × Nat) → Except String Int
  | e, [] => .ok e
  | e, (a, _) :: rest =>
    if startsWithCh a 'D' then
      match parseNat? (pySliceFrom a 1) with
      | none => .error "ValueError"
      | some dn =>
        match findSample sds row.sample with
        | none => .error "KeyError"
        | some sd =>
          match sd.cmap.mapAtoB (row.s_pos + dn) 1 with
          | some re => extendDel sds row (max e re) rest
          | none => .error "consensus extends beyond start or end of reference."
    else extendDel sds row e rest

/-- intrahost.py:263-276: the length of this variation, `end`, grown over
all rows from the mapped interval ends and the deletion alleles. -/
def computeEnd (sds : List SampleData) : Int → List PRow → Except String Int
  | e, [] => .ok e
  | e, row :: rest =>
    match extendDel sds row (max e row.endRef) row.allele_counts with
    | .error err => .error err
    | .ok e' => computeEnd sds e' rest

/-- intrahost.py:282-289: `samp_offsets` — one sample-local position per
sample; two different sample-local positions mapping to this reference
position is a fatal `NotImplementedError`. -/
def buildOffsets : Dict Int → List PRow → Except String (Dict Int)
  | so, [] => .ok so
  | so, row :: rest =>
    match dGet so row.sample with
    | some v =>
      if v = row.s_pos then buildOffsets so rest
      else .error "NotImplementedError: variants at 2 positions mapped to same reference position"
    | none => buildOffsets (dInsert so row.sample row.s_pos) rest

/-- All characters canonical nucleotides (`set(('A','C','T','G'))`). -/
def cleanACGT (s : String) : Bool :=
  s.data.all (fun c => c = 'A' ∨ c = 'C' ∨ c = 'T' ∨ c = 'G')

/-- intrahost.py:290-306: per sample, map the site interval into the
sample's consensus coordinates, extract and uppercase the consensus slice,
shift the sample's offset from absolute to slice-relative, and keep the
slice only if it is clean; unmappable or unclean consensus drops the sample
(logged, not fatal). -/
def buildCons (pos endP : Int) : List SampleData → Dict String → Dict Int → Dict String × Dict Int
  | [], ca, so => (ca, so)
  | sd :: rest, ca, so =>
    match sd.cmap.mapBtoA pos (-1), sd.cmap.mapBtoA endP 1 with
    | some cs, some cst =>
      if cleanACGT (strUpper (pySlice sd.cons (cs - 1) cst)) then
        buildCons pos endP rest
          (dInsert ca sd.name (strUpper (pySlice sd.cons (cs - 1) cst)))
          (match dGet so sd.name with
           | some v => dInsert so sd.name (v - cs)
           | none => so)
      else
        buildCons pos endP rest ca
          (match dGet so sd.name with
           | some v => dInsert so sd.name (v - cs)
           | none => so)
    | _, _ => buildCons pos endP rest ca so

/-- intrahost.py:313-314: `dict(itertools.chain(...))` over all of this
sample's rows at the site — later duplicate keys overwrite earlier ones. -/
def rawAcounts (rows : List PRow) (s : String) : Dict Nat :=
  (((rows.filter (fun r => r.sample = s)).map (·.allele_counts)).flatten).foldl
    (fun d x => dInsert d x.1 x.2) []

/-- `int(round(m/2.0, 0))` for a natural `m`: Python 3 `round` is
round-half-to-even on the exact float `m/2.0`. -/
def roundHalfEven (m : Nat) : Nat :=
  if m % 2 = 0 then m / 2 else if (m / 2) % 2 = 0 then m / 2 else m / 2 + 1

/-- intrahost.py:315-320: if both the insertion-point marker `i` and the
deletion-point marker `d` are present (both denote the reference/majority
call), replace them by one `i` entry holding the rounded average and delete
`d`. -/
def buildAcounts (rows : List PRow) (s : String) : Dict Nat :=
  let d := rawAcounts rows s
  match dGet d "i", dGet d "d" with
  | some ci, some cd => dDel (dInsert d "i" (roundHalfEven (ci + cd))) "d"
  | _, _ => d

/-- intrahost.py:329-353: translate one raw allele token into a literal
sequence string anchored on the sample's consensus slice.  `off` is this
sample's slice-relative offset, `f` the token's frequency (needed because
the mismatch warning at line 347 indexes the consensus only when
`f > 0.5`, where an out-of-range offset is an `IndexError`). -/
def derive (consAllele : String) (off : Int) (f : Frac) (a : String) : Except String String :=
  if startsWithCh a 'I' then
    .ok (pySlice consAllele 0 (off + 1) ++ pySliceFrom a 1 ++ pySliceFrom consAllele (off + 1))
  else if startsWithCh a 'D' then
    match parseNat? (pySliceFrom a 1) with
    | none => .error "ValueError"
    | some dn => .ok (pySlice consAllele 0 (off + 1) ++ pySliceFrom consAllele (off + 1 + dn))
  else if a = "i" ∨ a = "d" then .ok consAllele
  else if a = "A" ∨ a = "C" ∨ a = "T" ∨ a = "G" then
    if Frac.gtHalf f ∧ (pyGet consAllele off).isNone then .error "IndexError"
    else
      match a.data with
      | [c] =>
        match pySet consAllele off c with
        | some s' => .ok s'
        | none => .error "IndexError"
      | _ => .error "IndexError"
  else .error "Exception"

/-- intrahost.py:327-356: fold over `acounts.items()`, deriving each allele
string, checking it is non-empty uppercase, and recording its frequency
(`iSNVs[s][a] = f`, so a later entry deriving the same string overwrites).
A zero total is Python's `ZeroDivisionError` at the first iteration. -/
def sampleFold (consAllele : String) (off : Int) (tot : Nat) :
    Dict Frac → List (String × Nat) → Except String (Dict Frac)
  | m, [] => .ok m
  | m, (a, n) :: rest =>
    if h : tot = 0 then .error "ZeroDivisionError"
    else
      match derive consAllele off (Frac.ofCounts n tot h) a with
      | .error e => .error e
      | .ok a' =>
        if a' ≠ "" ∧ a' = strUpper a' then
          sampleFold consAllele off tot (dInsert m a' (Frac.ofCounts n tot h)) rest
        else .error "Exception"

/-- intrahost.py:322-359: one sample's `iSNVs[s]` map, with the final
pure-SNP consistency check (all derived alleles single bases but the
consensus absent is fatal). -/
def sampleISNV (consAllele : String) (off : Int) (ac : Dict Nat) : Except String (Dict Frac) :=
  match sampleFold consAllele off (dTotal ac) [] ac with
  | .error e => .error e
  | .ok m =>
    if (m.all (fun p => p.1.length = 1)) ∧ (dGet m consAllele).isNone then .error "Exception"
    else .ok m

/-- intrahost.py:309-362: the `iSNVs` dict.  A sample with merged allele
counts and a clean consensus gets its derived map; a sample with a clean
consensus but no counts gets the synthesized `{consAllele: 1.0}`; other
samples are absent. -/
def buildISNVs (rows : List PRow) (consA : Dict String) (so : Dict Int) :
    List SampleData → Dict (Dict Frac) → Except String (Dict (Dict Frac))
  | [], isnvs => .ok isnvs
  | sd :: rest, isnvs =>
    match dGet consA sd.name with
    | some consAllele =>
      if buildAcounts rows sd.name ≠ [] then
        match dGet so sd.name with
        | none => .error "KeyError"
        | some off =>
          match sampleISNV consAllele off (buildAcounts rows sd.name) with
          | .error e => .error e
          | .ok m => buildISNVs rows consA so rest (dInsert isnvs sd.name m)
      else buildISNVs rows consA so rest (dInsert isnvs sd.name [(consAllele, Frac.one)])
    | none => buildISNVs rows consA so rest isnvs

/-! ## Allele universe and output assembly (intrahost.py:364-399) -/

/-- intrahost.py:371-374: consensus alleles with their sample counts,
sorted by descending count (stable, so encounter order breaks ties). -/
def consPairsOf (consA : Dict String) : List (String × Nat) :=
  List.insertionSort (fun x y => y.2 ≤ x.2) (histogram (consA.map (·.2)))

/-- intrahost.py:375: `itertools.chain` of `iSNVs[s].items()` in sample
order. -/
def isnvPairs (sds : List SampleData) (isnvs : Dict (Dict Frac)) : List (String × Frac) :=
  ((sds.filterMap (fun sd => dGet isnvs sd.name)).map (fun m => m)).flatten

/-- intrahost.py:376-379: per distinct allele, the tuple
`(len(counts), sum(counts), a)`.  (Python iterates a set here; the order
is irrelevant because the subsequent sort key is injective on distinct
alleles — the allele string is its last component.) -/
def isnvTuplesOf (pairs : List (String × Frac)) : List (Nat × Frac × String) :=
  (pyUnique (pairs.map (·.1))).map (fun a =>
    let counts := (pairs.filter (fun x => x.1 = a)).map (·.2)
    (counts.length, fsum counts, a))

/-- Python `<=` on the sort-key tuples `(n_samples, n_reads, allele)`:
lexicographic on (int, float, str). -/
def tripLe (x y : Nat × Frac × String) : Prop :=
  x.1 < y.1 ∨ (x.1 = y.1 ∧
    (Frac.lt x.2.1 y.2.1 ∨ (Frac.ratEq x.2.1 y.2.1 ∧ strLe x.2.2 y.2.2)))

instance : DecidableRel tripLe := fun x y => by unfold tripLe; infer_instance

/-- intrahost.py:380: `reversed(sorted(alleles_isnv2))`. -/
def sortTuplesDesc (l : List (Nat × Frac × String)) : List (Nat × Frac × String) :=
  (List.insertionSort tripLe l).reverse

/-- `dict((a,i) for i,a in enumerate(alleles))` followed by `.get`:
the index of an allele in the (deduplicated) universe. -/
def idxOf : List String → String → Option Nat
  | [], _ => none
  | a :: l, b => if a = b then some 0 else (idxOf l b).map (· + 1)

/-- intrahost.py:364-399: the allele universe, genotype indexes, frequency
vectors and the `','.join(...) or '.'` serialization decision. -/
def assembleSite (chrom : String) (pos endP : Int) (refAllele : String)
    (consA : Dict String) (so : Dict Int) (isnvs : Dict (Dict Frac))
    (sds : List SampleData) : Except String SiteOut :=
  let cps := consPairsOf consA
  let aCons := (cps.map (·.1)).filter (fun a => a ≠ refAllele)
  let tups := sortTuplesDesc (isnvTuplesOf (isnvPairs sds isnvs))
  let aIsnv := tups.map (fun x => x.2.2)
  let alleles := pyUnique ([refAllele] ++ aCons ++ aIsnv)
  match alleles with
  | [] => .error "Exception"
  | a0 :: arest =>
    let genos := sds.map (fun sd => (dGet consA sd.name).bind (idxOf (a0 :: arest)))
    let freqs := sds.map (fun sd => (dGet isnvs sd.name).map (fun m =>
      arest.map (fun a => (dGet m a).getD Frac.zero)))
    let afF := freqs.map (fun o =>
      match o with
      | none => none
      | some [] => none
      | some (x :: xs) => some (x :: xs))
    .ok ⟨chrom, pos, endP, refAllele, consA, so, isnvs, cps, tups,
      a0 :: arest, genos, freqs, afF⟩

/-- intrahost.py:260-399: process the group of rows at one reference
position. -/
def processSite (refSeq chrom : String) (sds : List SampleData)
    (pos : Int) (rows : List PRow) : Except String SiteOut :=
  match computeEnd sds pos rows with
  | .error e => .error e
  | .ok endP =>
    let refAllele := pySlice refSeq (pos - 1) endP
    match buildOffsets [] rows with
    | .error e => .error e
    | .ok so =>
      match buildCons pos endP sds [] so with
      | (consA, so2) =>
        match buildISNVs rows consA so2 sds [] with
        | .error e => .error e
        | .ok isnvs => assembleSite chrom pos endP refAllele consA so2 isnvs sds

/-- intrahost.py:222-399: process one reference chromosome. -/
def processChrom (refSeq chrom : String) (sds : List SampleData) :
    Except String (List SiteOut) :=
  match gatherRows sds with
  | .error e => .error e
  | .ok rows =>
    mapE (fun g => processSite refSeq chrom sds g.1 g.2) (groupRows (sortRows rows))

/-- Zip the three per-sample input lists (known to have equal lengths when
this is reached). -/
def mkSds : List String → List (List RawRow) → List (CMap × String) → List SampleData
  | s :: ss, rows :: rr, (cm, cons) :: aa => ⟨s, cm, cons, rows⟩ :: mkSds ss rr aa
  | _, _, _ => []

/-- intrahost.py:185-399, the merge itself: the up-front configuration
checks (list lengths, output extension), then each reference chromosome in
turn; the VCF data rows correspond one-to-one to the returned `SiteOut`s.
I/O (header writing, compression, indexing) is not modelled. -/
def merge_to_vcf (refChroms : List (String × String)) (outVcf : String)
    (samples : List String) (isnvs : List (List RawRow))
    (assemblies : List (CMap × String)) : Except String (List SiteOut) :=
  if samples.length = isnvs.length ∧ isnvs.length = assemblies.length then
    if strEndsWith outVcf ".vcf.gz" ∨ strEndsWith outVcf ".vcf" then
      let sds := mkSds samples isnvs assemblies
      match mapE (fun rc => processChrom rc.2 rc.1 sds) refChroms with
      | .error e => .error e
      | .ok perChrom => .ok perChrom.flatten
    else .error "outVcf must end in .vcf or .vcf.gz"
  else .error "samples, isnvs, and assemblies must have the same number of elements"

/-! ## Specification-side definitions used in theorem statements -/

/-- The sum of the rational values stored in an `iSNVs[s]` dict. -/
def vsumQ (m : Dict Frac) : ℚ := (m.map (fun p => p.2.val)).sum

/-- A well-formed `iSNVs[s]` map: non-negative frequencies summing to 1 at
most. -/
def Pgood (m : Dict Frac) : Prop := (∀ p ∈ m, 0 ≤ p.2.val) ∧ vsumQ m ≤ 1

/-! ## Concrete example inputs

Used by the witness and counterexample theorems below; an identity
coordinate mapper over a length-`n` sequence, and small single-sample
variant files. -/

/-- The coordinate mapper of a sample whose consensus aligns to the
reference base-for-base over positions `1..n`. -/
def idCMap (sc : String) (n : Nat) : CMap :=
  ⟨sc, fun p _ => if 1 ≤ p ∧ p ≤ (n : Int) then some p else none,
       fun p _ => if 1 ≤ p ∧ p ≤ (n : Int) then some p else none⟩

/-- A SNP row with three alleles: `A` and `C` tie on count and summed
frequency; `G` is the consensus call. -/
def exRow1 : RawRow := ⟨"s1c", 1, "A", "G", [("A", 1, 0), ("C", 1, 0), ("G", 2, 0)]⟩

/-- Sample for `exRow1`, consensus `G`. -/
def exSample1 : SampleData := ⟨"s1", idCMap "s1c" 1, "G", [exRow1]⟩

/-- The preprocessed `exRow1`. -/
def exPRow1 : PRow := ⟨"s1", 1, "A", [("G", 2), ("A", 1), ("C", 1)], 1, 1⟩

/-- The merged site produced from `exRow1` against reference `G`. -/
def exSite1 : SiteOut :=
  ⟨"ref", 1, 1, "G", [("s1", "G")], [("s1", 0)],
    [("s1", [("G", ⟨2, 4, by decide⟩), ("A", ⟨1, 4, by decide⟩), ("C", ⟨1, 4, by decide⟩)])],
    [("G", 1)],
    [(1, ⟨2, 4, by decide⟩, "G"), (1, ⟨1, 4, by decide⟩, "C"), (1, ⟨1, 4, by decide⟩, "A")],
    ["G", "C", "A"], [some 0],
    [some [⟨1, 4, by decide⟩, ⟨1, 4, by decide⟩]],
    [some [⟨1, 4, by decide⟩, ⟨1, 4, by decide⟩]]⟩

/-- A single-allele SNP row whose only allele equals the consensus. -/
def exRow2 : RawRow := ⟨"s1c", 1, "A", "C", [("A", 3, 2)]⟩

/-- Sample for `exRow2`, consensus `A`. -/
def exSample2 : SampleData := ⟨"s1", idCMap "s1c" 1, "A", [exRow2]⟩

/-- The merged site produced from `exRow2` against reference `A`: the
allele universe has size 1 and the sample's AF field collapses to `.`. -/
def exSite2 : SiteOut :=
  ⟨"ref", 1, 1, "A", [("s1", "A")], [("s1", 0)],
    [("s1", [("A", ⟨5, 5, by decide⟩)])],
    [("A", 1)], [(1, ⟨5, 5, by decide⟩, "A")],
    ["A"], [some 0], [some []], [none]⟩

/-- The merged site produced from `exRow2` against the lower-case
reference `a`: the consensus `A` is a distinct non-reference allele. -/
def exSite3 : SiteOut :=
  ⟨"ref", 1, 1, "a", [("s1", "A")], [("s1", 0)],
    [("s1", [("A", ⟨5, 5, by decide⟩)])],
    [("A", 1)], [(1, ⟨5, 5, by decide⟩, "A")],
    ["a", "A"], [some 1],
    [some [⟨5, 5, by decide⟩]], [some [⟨5, 5, by decide⟩]]⟩

/-- The preprocessed `exRow2`. -/
def exPRow2 : PRow := ⟨"s1", 1, "A", [("A", 5)], 1, 1⟩

/-- A row whose sample-local position maps outside the reference. -/
def exRow4a : RawRow := ⟨"s1c", 5, "A", "G", [("A", 3, 2)]⟩

/-- Sample for `exRow4a`. -/
def exSample4a : SampleData := ⟨"s1", idCMap "s1c" 1, "G", [exRow4a]⟩

/-- A deletion row whose deletion endpoint maps outside the reference. -/
def exRow4b : RawRow := ⟨"s1c", 2, "D1", "G", [("D1", 3, 2), ("i", 2, 3)]⟩

/-- Sample for `exRow4b`. -/
def exSample4b : SampleData := ⟨"s1", idCMap "s1c" 1, "G", [exRow4b]⟩

/-- The preprocessed `exRow4b`: anchored one base left, at 1. -/
def exPRow4b : PRow := ⟨"s1", 1, "D1", [("D1", 5), ("i", 5)], 1, 1⟩

/-- Two rows of the same sample with different sample-local positions. -/
def exPRowC6a : PRow := ⟨"s", 1, "A", [], 1, 1⟩

/-- See `exPRowC6a`. -/
def exPRowC6b : PRow := ⟨"s", 2, "A", [], 1, 1⟩

/-- A row carrying both the `i` and `d` reference markers. -/
def exPRowC7 : PRow := ⟨"s1", 1, "D1", [("d", 4), ("i", 3)], 1, 1⟩

/-! ## Dictionary lemmas -/

theorem dGet_dInsert_self {α : Type} (d : Dict α) (k : String) (v : α) :
    dGet (dInsert d k v) k = some v := by
  induction d with
  | nil => simp [dInsert, dGet]
  | cons p rest ih =>
    obtain ⟨k', v'⟩ := p
    by_cases h : k' = k <;> simp [dInsert, dGet, h, ih]

theorem dGet_dInsert_ne {α : Type} (d : Dict α) {k k' : String} (v : α) (h : k' ≠ k) :
    dGet (dInsert d k v) k' = dGet d k' := by
  induction d with
  | nil => simp [dInsert, dGet, Ne.symm h]
  | cons p rest ih =>
    obtain ⟨k₀, v₀⟩ := p
    by_cases h0 : k₀ = k
    · subst h0
      simp [dInsert, dGet, Ne.symm h]
    · simp [dInsert, dGet, h0, ih]

theorem dGet_dDel_self {α : Type} (d : Dict α) (k : String) :
    dGet (dDel d k) k = none := by
  induction d with
  | nil => simp [dDel, dGet]
  | cons p rest ih =>
    obtain ⟨k₀, v₀⟩ := p
    by_cases h0 : k₀ = k <;> simp [dDel, dGet, h0, ih]

theorem dGet_dDel_ne {α : Type} (d : Dict α) {k k' : String} (h : k' ≠ k) :
    dGet (dDel d k) k' = dGet d k' := by
  induction d with
  | nil => simp [dDel, dGet]
  | cons p rest ih =>
    obtain ⟨k₀, v₀⟩ := p
    by_cases h0 : k₀ = k
    · subst h0
      simp [dDel, dGet, Ne.symm h, ih]
    · simp [dDel, dGet, h0, ih]

theorem mem_dInsert {α : Type} {d : Dict α} {k : String} {v : α} {p : String × α}
    (h : p ∈ dInsert d k v) : p ∈ d ∨ p = (k, v) := by
  induction d with
  | nil => simpa [dInsert] using h
  | cons q rest ih =>
    obtain ⟨k₀, v₀⟩ := q
    by_cases h0 : k₀ = k
    · simp only [dInsert, if_pos h0] at h
      rcases List.mem_cons.1 h with h | h
      · exact Or.inr h
      · exact Or.inl (List.mem_cons_of_mem _ h)
    · simp only [dInsert, if_neg h0] at h
      rcases List.mem_cons.1 h with h | h
      · exact Or.inl (List.mem_cons.2 (Or.inl h))
      · rcases ih h with h | h
        · exact Or.inl (List.mem_cons_of_mem _ h)
        · exact Or.inr h

theorem mem_dDel {α : Type} {d : Dict α} {k : String} {p : String × α}
    (h : p ∈ dDel d k) : p ∈ d := by
  induction d with
  | nil => simp [dDel] at h
  | cons q rest ih =>
    obtain ⟨k₀, v₀⟩ := q
    by_cases h0 : k₀ = k
    · simp only [dDel, if_pos h0] at h
      exact List.mem_cons_of_mem _ (ih h)
    · simp only [dDel, if_neg h0] at h
      rcases List.mem_cons.1 h with h | h
      · exact List.mem_cons.2 (Or.inl h)
      · exact List.mem_cons_of_mem _ (ih h)

theorem dGet_mem {α : Type} {d : Dict α} {k : String} {v : α}
    (h : dGet d k = some v) : (k, v) ∈ d := by
  induction d with
  | nil => simp [dGet] at h
  | cons q rest ih =>
    obtain ⟨k₀, v₀⟩ := q
    by_cases h0 : k₀ = k
    · subst h0
      simp only [dGet, if_true, eq_self_iff_true, Option.some.injEq] at h
      subst h
      exact List.mem_cons_self _ _
    · simp only [dGet, if_neg h0] at h
      exact List.mem_cons_of_mem _ (ih h)

theorem dGet_some_of_mem_keys {α : Type} {d : Dict α} {k : String}
    (h : k ∈ d.map (·.1)) : (dGet d k).isSome := by
  induction d with
  | nil => simp at h
  | cons q rest ih =>
    obtain ⟨k₀, v₀⟩ := q
    by_cases h0 : k₀ = k
    · simp [dGet, h0]
    · simp only [List.map_cons, List.mem_cons] at h
      rcases h with h | h
      · exact absurd h.symm h0
      · simpa [dGet, h0] using ih h

/-- Keys of a dict after insertion. -/
theorem dInsert_keys_nodup {α : Type} {d : Dict α} (k : String) (v : α)
    (h : (d.map (·.1)).Nodup) : ((dInsert d k v).map (·.1)).Nodup := by
  induction d with
  | nil => simp [dInsert]
  | cons q rest ih =>
    obtain ⟨k₀, v₀⟩ := q
    simp only [List.map_cons, List.nodup_cons] at h
    by_cases h0 : k₀ = k
    · subst h0
      simpa [dInsert] using h
    · simp only [dInsert, if_neg h0, List.map_cons, List.nodup_cons]
      refine ⟨fun hc => ?_, ih h.2⟩
      rcases List.mem_map.1 hc with ⟨p, hp, hpk⟩
      rcases mem_dInsert hp with hp | hp
      · exact h.1 (List.mem_map.2 ⟨p, hp, hpk⟩)
      · subst hp
        exact h0 (Eq.symm (show k = k₀ by simpa using hpk))

theorem dDel_eq_of_not_mem {α : Type} {d : Dict α} {k : String}
    (h : k ∉ d.map (·.1)) : dDel d k = d := by
  induction d with
  | nil => rfl
  | cons q rest ih =>
    obtain ⟨k₀, v₀⟩ := q
    simp only [List.map_cons, List.mem_cons, not_or] at h
    have h0 : k₀ ≠ k := fun e => h.1 e.symm
    simp [dDel, h0, ih h.2]

theorem dGet_eq_none_of_not_mem {α : Type} {d : Dict α} {k : String}
    (h : k ∉ d.map (·.1)) : dGet d k = none := by
  cases hg : dGet d k with
  | none => rfl
  | some v => exact absurd (List.mem_map.2 ⟨(k, v), dGet_mem hg, rfl⟩) h

theorem dTotal_dInsert {d : Dict Nat} (k : String) (v : Nat)
    (h : (d.map (·.1)).Nodup) :
    dTotal (dInsert d k v) + (dGet d k).getD 0 = dTotal d + v := by
  induction d with
  | nil => simp [dInsert, dGet, dTotal]
  | cons q rest ih =>
    obtain ⟨k₀, v₀⟩ := q
    simp only [List.map_cons, List.nodup_cons] at h
    by_cases h0 : k₀ = k
    · subst h0
      simp only [dInsert, if_true, eq_self_iff_true, dGet, dTotal,
        List.map_cons, List.sum_cons, Option.getD_some]
      omega
    · have := ih h.2
      simp only [dInsert, if_neg h0, dGet, if_neg h0, dTotal, List.map_cons,
        List.sum_cons] at *
      omega

theorem dTotal_dDel {d : Dict Nat} (k : String)
    (h : (d.map (·.1)).Nodup) :
    dTotal (dDel d k) + (dGet d k).getD 0 = dTotal d := by
  induction d with
  | nil => simp [dDel, dGet, dTotal]
  | cons q rest ih =>
    obtain ⟨k₀, v₀⟩ := q
    simp only [List.map_cons, List.nodup_cons] at h
    by_cases h0 : k₀ = k
    · subst h0
      rw [show dDel ((k₀, v₀) :: rest) k₀ = dDel rest k₀ by simp [dDel],
        dDel_eq_of_not_mem h.1,
        show dGet ((k₀, v₀) :: rest) k₀ = some v₀ by simp [dGet]]
      simp only [dTotal, List.map_cons, List.sum_cons, Option.getD_some]
      omega
    · have := ih h.2
      simp only [dDel, if_neg h0, dGet, if_neg h0, dTotal, List.map_cons,
        List.sum_cons] at *
      omega

theorem foldl_dInsert_keys_nodup {α : Type} (l : List (String × α)) (d : Dict α)
    (h : (d.map (·.1)).Nodup) :
    ((l.foldl (fun d x => dInsert d x.1 x.2) d).map (·.1)).Nodup := by
  induction l generalizing d with
  | nil => simpa using h
  | cons x xs ih => exact ih _ (dInsert_keys_nodup _ _ h)

theorem rawAcounts_keys_nodup (rows : List PRow) (s : String) :
    ((rawAcounts rows s).map (·.1)).Nodup := by
  unfold rawAcounts
  exact foldl_dInsert_keys_nodup _ [] (by simp)

/-! ## `pyUnique` lemmas -/

theorem mem_pyUniqueAux {a : String} : ∀ {seen l : List String},
    a ∈ pyUniqueAux seen l ↔ a ∈ l ∧ a ∉ seen
  | seen, [] => by simp [pyUniqueAux]
  | seen, b :: l => by
    by_cases hb : b ∈ seen
    · rw [pyUniqueAux, if_pos hb, mem_pyUniqueAux]
      constructor
      · rintro ⟨h1, h2⟩
        exact ⟨List.mem_cons_of_mem _ h1, h2⟩
      · rintro ⟨h1, h2⟩
        rcases List.mem_cons.1 h1 with rfl | h1
        · exact absurd hb h2
        · exact ⟨h1, h2⟩
    · rw [pyUniqueAux, if_neg hb]
      constructor
      · intro h
        rcases List.mem_cons.1 h with rfl | h
        · exact ⟨List.mem_cons_self _ _, hb⟩
        · rcases mem_pyUniqueAux.1 h with ⟨h1, h2⟩
          simp only [List.mem_cons, not_or] at h2
          exact ⟨List.mem_cons_of_mem _ h1, h2.2⟩
      · rintro ⟨h1, h2⟩
        rcases List.mem_cons.1 h1 with rfl | h1
        · exact List.mem_cons_self _ _
        · by_cases hab : a = b
          · subst hab
            exact List.mem_cons_self _ _
          · refine List.mem_cons_of_mem _ (mem_pyUniqueAux.2 ⟨h1, ?_⟩)
            simp [List.mem_cons, hab, h2]

theorem mem_pyUnique {a : String} {l : List String} : a ∈ pyUnique l ↔ a ∈ l := by
  simp [pyUnique, mem_pyUniqueAux]

theorem nodup_pyUniqueAux : ∀ (seen l : List String), (pyUniqueAux seen l).Nodup
  | _, [] => List.nodup_nil
  | seen, b :: l => by
    by_cases hb : b ∈ seen
    · simpa [pyUniqueAux, if_pos hb] using nodup_pyUniqueAux seen l
    · simp only [pyUniqueAux, if_neg hb, List.nodup_cons]
      exact ⟨fun hc => ((mem_pyUniqueAux).1 hc).2 (List.mem_cons_self _ _),
        nodup_pyUniqueAux _ l⟩

theorem nodup_pyUnique (l : List String) : (pyUnique l).Nodup :=
  nodup_pyUniqueAux [] l

theorem pyUnique_cons_head (a : String) (l : List String) :
    pyUnique (a :: l) = a :: pyUniqueAux [a] l := by
  simp [pyUnique, pyUniqueAux]

theorem pyUnique_append_head (a : String) (x y : List String) :
    (pyUnique ([a] ++ x ++ y)).head? = some a := by
  have h : [a] ++ x ++ y = a :: (x ++ y) := by simp
  rw [h, pyUnique_cons_head]
  rfl

/-! ## `mapE` lemmas -/

theorem mapE_ok_forall {α β : Type} {f : α → Except String β} :
    ∀ {l : List α} {ys : List β}, mapE f l = .ok ys → ∀ x ∈ l, ∃ y, f x = .ok y
  | [], _, _ => by simp
  | x :: xs, ys, h => by
    intro z hz
    rcases List.mem_cons.1 hz with hz | hz
    · subst hz
      cases hf : f z with
      | error e => rw [mapE, hf] at h; cases h
      | ok y => exact ⟨y, rfl⟩
    · cases hf : f x with
      | error e => rw [mapE, hf] at h; cases h
      | ok y =>
        rw [mapE, hf] at h
        cases hm : mapE f xs with
        | error e => rw [hm] at h; cases h
        | ok ys' => exact mapE_ok_forall hm z hz

theorem mapE_ok_mem_rev {α β : Type} {f : α → Except String β} :
    ∀ {l : List α} {ys : List β}, mapE f l = .ok ys → ∀ y ∈ ys, ∃ x ∈ l, f x = .ok y
  | [], ys, h => by
    simp only [mapE, Except.ok.injEq] at h
    subst h
    simp
  | x :: xs, ys, h => by
    intro y hy
    cases hf : f x with
    | error e => rw [mapE, hf] at h; cases h
    | ok y0 =>
      rw [mapE, hf] at h
      cases hm : mapE f xs with
      | error e => rw [hm] at h; cases h
      | ok ys' =>
        rw [hm] at h
        injection h with h
        subst h
        rcases List.mem_cons.1 hy with hy | hy
        · exact ⟨x, List.mem_cons_self _ _, hy ▸ hf⟩
        · rcases mapE_ok_mem_rev hm y hy with ⟨x', hx', hfx'⟩
          exact ⟨x', List.mem_cons_of_mem _ hx', hfx'⟩

/-! ## `Frac` value lemmas -/

theorem Frac.den_pos_q (x : Frac) : (0 : ℚ) < (x.den : ℚ) := by
  exact_mod_cast x.den_pos

theorem Frac.val_nonneg {x : Frac} (h : 0 ≤ x.num) : 0 ≤ x.val :=
  div_nonneg (by exact_mod_cast h) (le_of_lt x.den_pos_q)

theorem Frac.zero_val : Frac.zero.val = 0 := by
  simp [Frac.zero, Frac.val]

theorem Frac.one_val : Frac.one.val = 1 := by
  simp [Frac.one, Frac.val]

theorem Frac.ofCounts_val (n tot : Nat) (h : ¬ tot = 0) :
    (Frac.ofCounts n tot h).val = (n : ℚ) / (tot : ℚ) := by
  simp [Frac.ofCounts, Frac.val]

theorem Frac.lt_iff_val {x y : Frac} : Frac.lt x y ↔ x.val < y.val := by
  unfold Frac.lt Frac.val
  rw [div_lt_div_iff₀ x.den_pos_q y.den_pos_q]
  exact_mod_cast Iff.rfl

theorem Frac.ratEq_iff_val {x y : Frac} : Frac.ratEq x y ↔ x.val = y.val := by
  unfold Frac.ratEq Frac.val
  rw [div_eq_div_iff (ne_of_gt x.den_pos_q) (ne_of_gt y.den_pos_q)]
  exact_mod_cast Iff.rfl

/-! ## Comparison relations: totality and transitivity -/

theorem strLeB_total : ∀ a b : List Char, strLeB a b = true ∨ strLeB b a = true
  | [], _ => Or.inl rfl
  | _ :: _, [] => Or.inr rfl
  | a :: as, b :: bs => by
    by_cases hab : a = b
    · subst hab
      simpa [strLeB] using strLeB_total as bs
    · rcases lt_or_gt_of_ne hab with h | h
      · exact Or.inl (by simp [strLeB, hab, h])
      · exact Or.inr (by simp [strLeB, Ne.symm hab, h])

theorem strLeB_trans :
    ∀ a b c : List Char, strLeB a b = true → strLeB b c = true → strLeB a c = true
  | [], _, _, _, _ => rfl
  | _ :: _, [], _, h1, _ => by simp [strLeB] at h1
  | _ :: _, _ :: _, [], _, h2 => by simp [strLeB] at h2
  | a :: as, b :: bs, c :: cs, h1, h2 => by
    by_cases hab : a = b <;> by_cases hbc : b = c
    · subst hab; subst hbc
      simp only [strLeB, if_pos rfl] at h1 h2 ⊢
      exact strLeB_trans _ _ _ h1 h2
    · subst hab
      simp only [strLeB, if_neg hbc] at h2
      simp [strLeB, hbc, h2]
    · subst hbc
      simp only [strLeB, if_neg hab] at h1
      simp [strLeB, hab, h1]
    · simp only [strLeB, if_neg hab, if_neg hbc, decide_eq_true_eq] at h1 h2
      have hac : a ≠ c := ne_of_lt (lt_trans h1 h2)
      simp [strLeB, hac, lt_trans h1 h2]

theorem strLe_trans {a b c : String} (h1 : strLe a b) (h2 : strLe b c) : strLe a c :=
  strLeB_trans a.data b.data c.data h1 h2

instance : IsTotal (String × Nat) (fun x y => y.2 ≤ x.2) :=
  ⟨fun a b => Nat.le_total b.2 a.2⟩

instance : IsTrans (String × Nat) (fun x y => y.2 ≤ x.2) :=
  ⟨fun _ _ _ h1 h2 => le_trans h2 h1⟩

instance : IsTotal (Nat × Frac × String) tripLe :=
  ⟨fun x y => by
    unfold tripLe
    rcases Nat.lt_trichotomy x.1 y.1 with h | h | h
    · exact Or.inl (Or.inl h)
    · rcases Int.lt_trichotomy (x.2.1.num * y.2.1.den) (y.2.1.num * x.2.1.den)
        with hf | hf | hf
      · exact Or.inl (Or.inr ⟨h, Or.inl hf⟩)
      · rcases strLeB_total x.2.2.data y.2.2.data with hs | hs
        · exact Or.inl (Or.inr ⟨h, Or.inr ⟨hf, hs⟩⟩)
        · exact Or.inr (Or.inr ⟨h.symm, Or.inr ⟨hf.symm, hs⟩⟩)
      · exact Or.inr (Or.inr ⟨h.symm, Or.inl hf⟩)
    · exact Or.inr (Or.inl h)⟩

instance : IsTrans (Nat × Frac × String) tripLe :=
  ⟨by
    intro x y z h1 h2
    unfold tripLe at *
    rcases h1 with h1 | ⟨e1, h1⟩
    · rcases h2 with h2 | ⟨e2, _⟩
      · exact Or.inl (lt_trans h1 h2)
      · exact Or.inl (e2 ▸ h1)
    · rcases h2 with h2 | ⟨e2, h2⟩
      · exact Or.inl (e1 ▸ h2)
      · refine Or.inr ⟨e1.trans e2, ?_⟩
        rcases h1 with h1 | ⟨q1, s1⟩
        · rcases h2 with h2 | ⟨q2, _⟩
          · exact Or.inl (Frac.lt_iff_val.2
              (lt_trans (Frac.lt_iff_val.1 h1) (Frac.lt_iff_val.1 h2)))
          · exact Or.inl (Frac.lt_iff_val.2
              (lt_of_lt_of_eq (Frac.lt_iff_val.1 h1) (Frac.ratEq_iff_val.1 q2)))
        · rcases h2 with h2 | ⟨q2, s2⟩
          · exact Or.inl (Frac.lt_iff_val.2
              (lt_of_eq_of_lt (Frac.ratEq_iff_val.1 q1) (Frac.lt_iff_val.1 h2)))
          · exact Or.inr ⟨Frac.ratEq_iff_val.2
              ((Frac.ratEq_iff_val.1 q1).trans (Frac.ratEq_iff_val.1 q2)),
              strLe_trans s1 s2⟩⟩

/-! ## Stability of the count-descending sort

A stable sort is fully characterised by sortedness, being a permutation,
and preserving the relative order of equal keys; the last is expressed by
`filter (·.2 = c)` staying unchanged for every count `c`. -/

theorem filter_orderedInsert_count (c : Nat) (x : String × Nat) :
    ∀ l : List (String × Nat),
      (List.orderedInsert (fun a b => b.2 ≤ a.2) x l).filter (fun p => p.2 = c) =
        if x.2 = c then x :: l.filter (fun p => p.2 = c)
        else l.filter (fun p => p.2 = c)
  | [] => by
    by_cases hx : x.2 = c <;> simp [List.orderedInsert, List.filter, hx]
  | y :: l => by
    have hins : List.orderedInsert (fun a b => b.2 ≤ a.2) x (y :: l) =
        if y.2 ≤ x.2 then x :: y :: l
        else y :: List.orderedInsert (fun a b => b.2 ≤ a.2) x l := rfl
    rw [hins]
    by_cases hr : y.2 ≤ x.2
    · rw [if_pos hr]
      by_cases hx : x.2 = c <;> by_cases hy : y.2 = c <;>
        simp [List.filter_cons, hx, hy]
    · rw [if_neg hr]
      have ihl := filter_orderedInsert_count c x l
      by_cases hx : x.2 = c
      · have hy : ¬ y.2 = c := fun hyc => hr (le_of_eq (hyc.trans hx.symm))
        simp [List.filter_cons, hy, hx, ihl]
      · by_cases hy : y.2 = c <;> simp [List.filter_cons, hy, hx, ihl]

theorem filter_insertionSort_count (c : Nat) :
    ∀ l : List (String × Nat),
      (List.insertionSort (fun a b => b.2 ≤ a.2) l).filter (fun p => p.2 = c) =
        l.filter (fun p => p.2 = c)
  | [] => rfl
  | x :: l => by
    rw [List.insertionSort, filter_orderedInsert_count]
    by_cases hx : x.2 = c <;>
      simp [hx, List.filter_cons, filter_insertionSort_count c l]

/-! ## Sums of frequency values -/

theorem vsumQ_nonneg {m : Dict Frac} (hm : ∀ p ∈ m, 0 ≤ p.2.val) : 0 ≤ vsumQ m := by
  refine List.sum_nonneg ?_
  intro q hq
  rcases List.mem_map.1 hq with ⟨p, hp, rfl⟩
  exact hm p hp

theorem vsumQ_dInsert_le {m : Dict Frac} {k : String} {v : Frac}
    (hm : ∀ p ∈ m, 0 ≤ p.2.val) (_hv : 0 ≤ v.val) :
    vsumQ (dInsert m k v) ≤ vsumQ m + v.val := by
  induction m with
  | nil => simp [dInsert, vsumQ]
  | cons q rest ih =>
    obtain ⟨k₀, v₀⟩ := q
    have h0 : 0 ≤ v₀.val := hm (k₀, v₀) (List.mem_cons_self _ _)
    have hrest : ∀ p ∈ rest, 0 ≤ p.2.val := fun p hp => hm p (List.mem_cons_of_mem _ hp)
    by_cases hk : k₀ = k
    · simp only [dInsert, if_pos hk, vsumQ, List.map_cons, List.sum_cons]
      have : vsumQ rest ≤ vsumQ rest := le_rfl
      unfold vsumQ at *
      linarith
    · simp only [dInsert, if_neg hk, vsumQ, List.map_cons, List.sum_cons]
      have := ih hrest
      unfold vsumQ at this
      linarith

theorem vsumQ_dDel_le {m : Dict Frac} {k : String}
    (hm : ∀ p ∈ m, 0 ≤ p.2.val) : vsumQ (dDel m k) ≤ vsumQ m := by
  induction m with
  | nil => simp [dDel, vsumQ]
  | cons q rest ih =>
    obtain ⟨k₀, v₀⟩ := q
    have h0 : 0 ≤ v₀.val := hm (k₀, v₀) (List.mem_cons_self _ _)
    have hrest : ∀ p ∈ rest, 0 ≤ p.2.val := fun p hp => hm p (List.mem_cons_of_mem _ hp)
    by_cases hk : k₀ = k
    · simp only [dDel, if_pos hk]
      have := ih hrest
      unfold vsumQ at *
      simp only [List.map_cons, List.sum_cons]
      linarith
    · simp only [dDel, if_neg hk, vsumQ, List.map_cons, List.sum_cons]
      have := ih hrest
      unfold vsumQ at this
      linarith

theorem vsumQ_dDel_add_get_le {m : Dict Frac} {k : String}
    (hm : ∀ p ∈ m, 0 ≤ p.2.val) :
    vsumQ (dDel m k) + ((dGet m k).getD Frac.zero).val ≤ vsumQ m := by
  induction m with
  | nil => simp [dDel, dGet, vsumQ, Frac.zero_val]
  | cons q rest ih =>
    obtain ⟨k₀, v₀⟩ := q
    have h0 : 0 ≤ v₀.val := hm (k₀, v₀) (List.mem_cons_self _ _)
    have hrest : ∀ p ∈ rest, 0 ≤ p.2.val := fun p hp => hm p (List.mem_cons_of_mem _ hp)
    by_cases hk : k₀ = k
    · subst hk
      simp only [dDel, if_pos rfl, dGet, if_true, eq_self_iff_true,
        Option.getD_some, vsumQ, List.map_cons, List.sum_cons]
      have := vsumQ_dDel_le (m := rest) (k := k₀) hrest
      unfold vsumQ at *
      linarith
    · simp only [dDel, if_neg hk, dGet, if_neg hk, vsumQ, List.map_cons,
        List.sum_cons]
      have := ih hrest
      unfold vsumQ at this
      linarith

theorem lookup_vals_sum_le {m : Dict Frac} :
    ∀ {ks : List String}, ks.Nodup → (∀ p ∈ m, 0 ≤ p.2.val) →
      ((ks.map (fun k => (dGet m k).getD Frac.zero)).map Frac.val).sum ≤ vsumQ m := by
  intro ks
  induction ks generalizing m with
  | nil =>
    intro _ hm
    simpa using vsumQ_nonneg hm
  | cons k ks ih =>
    intro hnd hm
    simp only [List.nodup_cons] at hnd
    have hdel : ∀ p ∈ dDel m k, 0 ≤ p.2.val := fun p hp => hm p (mem_dDel hp)
    have hmapeq : ks.map (fun k' => (dGet m k').getD Frac.zero) =
        ks.map (fun k' => (dGet (dDel m k) k').getD Frac.zero) := by
      refine List.map_congr_left ?_
      intro k' hk'
      rw [dGet_dDel_ne _ (fun he => hnd.1 (by rw [he] at hk'; exact hk'))]
    simp only [List.map_cons, List.sum_cons]
    rw [hmapeq]
    have h1 := ih (m := dDel m k) hnd.2 hdel
    have h2 := vsumQ_dDel_add_get_le (m := m) (k := k) hm
    linarith

/-! ## Invariants of the per-sample frequency maps -/

theorem Frac.ofCounts_nonneg (n tot : Nat) (h : ¬ tot = 0) :
    0 ≤ (Frac.ofCounts n tot h).val := by
  apply Frac.val_nonneg
  show (0 : ℤ) ≤ (n : ℤ)
  exact_mod_cast Nat.zero_le n

theorem sampleFold_ok_inv {consA : String} {off : Int} {tot : Nat} :
    ∀ {ac : List (String × Nat)} {m m' : Dict Frac},
      sampleFold consA off tot m ac = .ok m' →
      (∀ p ∈ m, 0 ≤ p.2.val) →
      (∀ p ∈ m', 0 ≤ p.2.val) ∧
      vsumQ m' ≤ vsumQ m + ((ac.map (fun p => (p.2 : ℚ))).sum) / (tot : ℚ) ∧
      (∀ p ∈ m', p ∈ m ∨ ∃ a n, (a, n) ∈ ac ∧ p.2.num = n ∧ p.2.den = tot)
  | [], m, m', hok, hm => by
    rw [sampleFold] at hok
    injection hok with hok
    subst hok
    exact ⟨hm, by simp, fun p hp => Or.inl hp⟩
  | (a, n) :: rest, m, m', hok, hm => by
    rw [sampleFold] at hok
    by_cases h0 : tot = 0
    · rw [dif_pos h0] at hok
      cases hok
    · rw [dif_neg h0] at hok
      cases hd : derive consA off (Frac.ofCounts n tot h0) a with
      | error e => simp only [hd] at hok; cases hok
      | ok a' =>
        simp only [hd] at hok
        split at hok
        · rename_i hup
          have hf : 0 ≤ (Frac.ofCounts n tot h0).val := Frac.ofCounts_nonneg n tot h0
          have hm' : ∀ p ∈ dInsert m a' (Frac.ofCounts n tot h0), 0 ≤ p.2.val := by
            intro p hp
            rcases mem_dInsert hp with hp | hp
            · exact hm p hp
            · rw [hp]
              exact hf
          obtain ⟨g1, g2, g3⟩ := sampleFold_ok_inv hok hm'
          refine ⟨g1, ?_, ?_⟩
          · have hins := vsumQ_dInsert_le (m := m) (k := a') hm hf
            rw [Frac.ofCounts_val n tot h0] at hins
            have : ((((a, n) :: rest).map (fun p => (p.2 : ℚ))).sum) / (tot : ℚ) =
                (n : ℚ) / tot + ((rest.map (fun p => (p.2 : ℚ))).sum) / tot := by
              rw [List.map_cons, List.sum_cons, add_div]
            rw [this]
            linarith
          · intro p hp
            rcases g3 p hp with hp' | hp'
            · rcases mem_dInsert hp' with hp'' | hp''
              · exact Or.inl hp''
              · exact Or.inr ⟨a, n, List.mem_cons_self _ _, by rw [hp'']; exact ⟨rfl, rfl⟩⟩
            · rcases hp' with ⟨a₀, n₀, hmem, he⟩
              exact Or.inr ⟨a₀, n₀, List.mem_cons_of_mem _ hmem, he⟩
        · cases hok

theorem sampleISNV_ok_good {consA : String} {off : Int} {ac : Dict Nat} {m : Dict Frac}
    (h : sampleISNV consA off ac = .ok m) : Pgood m := by
  unfold sampleISNV at h
  cases hf : sampleFold consA off (dTotal ac) [] ac with
  | error e => simp only [hf] at h; cases h
  | ok m0 =>
    simp only [hf] at h
    have hm0 : m0 = m := by
      split at h
      · cases h
      · injection h
    subst hm0
    obtain ⟨g1, g2, _⟩ := sampleFold_ok_inv hf (by simp)
    refine ⟨g1, ?_⟩
    have hsum : ((ac.map (fun p => (p.2 : ℚ))).sum) = ((dTotal ac : ℚ)) := by
      unfold dTotal
      rw [Nat.cast_list_sum, List.map_map]
      rfl
    rw [vsumQ] at g2
    simp only [vsumQ, List.map_nil, List.sum_nil, zero_add] at g2
    rw [hsum] at g2
    by_cases hz : (dTotal ac : ℚ) = 0
    · rw [hz] at g2
      simpa using le_trans g2 (by norm_num)
    · rw [div_self hz] at g2
      exact g2

theorem sampleISNV_ok_consMem {consA : String} {off : Int} {ac : Dict Nat} {m : Dict Frac}
    (h : sampleISNV consA off ac = .ok m) (hall : ∀ p ∈ m, p.1.length = 1) :
    (dGet m consA).isSome := by
  unfold sampleISNV at h
  cases hf : sampleFold consA off (dTotal ac) [] ac with
  | error e => simp only [hf] at h; cases h
  | ok m0 =>
    simp only [hf] at h
    split at h
    · cases h
    · rename_i hc
      injection h with h
      subst h
      rcases not_and_or.1 hc with hc | hc
      · exact absurd (List.all_eq_true.2 (fun p hp => decide_eq_true (hall p hp))) hc
      · cases hg : dGet m0 consA with
        | none => exact absurd (by simp [hg]) hc
        | some v => simp [hg]

theorem buildISNVs_ok_good {rows : List PRow} {consA : Dict String} {so : Dict Int} :
    ∀ {sds : List SampleData} {acc isnvs : Dict (Dict Frac)},
      buildISNVs rows consA so sds acc = .ok isnvs →
      (∀ s m, dGet acc s = some m → Pgood m) →
      ∀ s m, dGet isnvs s = some m → Pgood m
  | [], acc, isnvs, hok, hacc => by
    rw [buildISNVs] at hok
    injection hok with hok
    subst hok
    exact hacc
  | sd :: rest, acc, isnvs, hok, hacc => by
    rw [buildISNVs] at hok
    cases hca : dGet consA sd.name with
    | none =>
      simp only [hca] at hok
      exact buildISNVs_ok_good hok hacc
    | some c =>
      simp only [hca] at hok
      split at hok
      · cases hso : dGet so sd.name with
        | none => simp only [hso] at hok; cases hok
        | some off =>
          simp only [hso] at hok
          cases hsi : sampleISNV c off (buildAcounts rows sd.name) with
          | error e => simp only [hsi] at hok; cases hok
          | ok m0 =>
            simp only [hsi] at hok
            refine buildISNVs_ok_good hok ?_
            intro s' m' hm'
            by_cases hs : s' = sd.name
            · subst hs
              rw [dGet_dInsert_self] at hm'
              injection hm' with hm'
              subst hm'
              exact sampleISNV_ok_good hsi
            · rw [dGet_dInsert_ne _ _ hs] at hm'
              exact hacc s' m' hm'
      · refine buildISNVs_ok_good hok ?_
        intro s' m' hm'
        by_cases hs : s' = sd.name
        · subst hs
          rw [dGet_dInsert_self] at hm'
          injection hm' with hm'
          subst hm'
          constructor
          · intro p hp
            rcases List.mem_cons.1 hp with hp | hp
            · rw [hp]
              simp [Frac.one_val]
            · simp at hp
          · simp [vsumQ, Frac.one_val]
        · rw [dGet_dInsert_ne _ _ hs] at hm'
          exact hacc s' m' hm'

theorem buildISNVs_ok_consMem {rows : List PRow} {consA : Dict String} {so : Dict Int} :
    ∀ {sds : List SampleData} {acc isnvs : Dict (Dict Frac)},
      buildISNVs rows consA so sds acc = .ok isnvs →
      (∀ s m, dGet acc s = some m → ∀ c, dGet consA s = some c →
        (∀ p ∈ m, p.1.length = 1) → (dGet m c).isSome) →
      ∀ s m, dGet isnvs s = some m → ∀ c, dGet consA s = some c →
        (∀ p ∈ m, p.1.length = 1) → (dGet m c).isSome
  | [], acc, isnvs, hok, hacc => by
    rw [buildISNVs] at hok
    injection hok with hok
    subst hok
    exact hacc
  | sd :: rest, acc, isnvs, hok, hacc => by
    rw [buildISNVs] at hok
    cases hca : dGet consA sd.name with
    | none =>
      simp only [hca] at hok
      exact buildISNVs_ok_consMem hok hacc
    | some c0 =>
      simp only [hca] at hok
      split at hok
      · cases hso : dGet so sd.name with
        | none => simp only [hso] at hok; cases hok
        | some off =>
          simp only [hso] at hok
          cases hsi : sampleISNV c0 off (buildAcounts rows sd.name) with
          | error e => simp only [hsi] at hok; cases hok
          | ok m0 =>
            simp only [hsi] at hok
            refine buildISNVs_ok_consMem hok ?_
            intro s' m' hm' c hc hall
            by_cases hs : s' = sd.name
            · subst hs
              rw [dGet_dInsert_self] at hm'
              injection hm' with hm'
              subst hm'
              rw [hca] at hc
              injection hc with hc
              subst hc
              exact sampleISNV_ok_consMem hsi hall
            · rw [dGet_dInsert_ne _ _ hs] at hm'
              exact hacc s' m' hm' c hc hall
      · refine buildISNVs_ok_consMem hok ?_
        intro s' m' hm' c hc hall
        by_cases hs : s' = sd.name
        · subst hs
          rw [dGet_dInsert_self] at hm'
          injection hm' with hm'
          subst hm'
          rw [hca] at hc
          injection hc with hc
          subst hc
          simp [dGet]
        · rw [dGet_dInsert_ne _ _ hs] at hm'
          exact hacc s' m' hm' c hc hall

/-! ## Extraction of the per-site processing stages -/

theorem processSite_ok_parts {refSeq chrom : String} {sds : List SampleData}
    {pos : Int} {rows : List PRow} {out : SiteOut}
    (h : processSite refSeq chrom sds pos rows = .ok out) :
    ∃ endP so consA so2 isnvs,
      computeEnd sds pos rows = .ok endP ∧
      buildOffsets [] rows = .ok so ∧
      buildCons pos endP sds [] so = (consA, so2) ∧
      buildISNVs rows consA so2 sds [] = .ok isnvs ∧
      assembleSite chrom pos endP (pySlice refSeq (pos - 1) endP) consA so2 isnvs sds
        = .ok out := by
  unfold processSite at h
  cases hce : computeEnd sds pos rows with
  | error e => simp only [hce] at h; cases h
  | ok endP =>
    simp only [hce] at h
    cases hbo : buildOffsets [] rows with
    | error e => simp only [hbo] at h; cases h
    | ok so =>
      simp only [hbo] at h
      rcases hbc : buildCons pos endP sds [] so with ⟨consA, so2⟩
      simp only [hbc] at h
      cases hbi : buildISNVs rows consA so2 sds [] with
      | error e => simp only [hbi] at h; cases h
      | ok isnvs =>
        simp only [hbi] at h
        exact ⟨endP, so, consA, so2, isnvs, rfl, rfl, hbc, hbi, h⟩

theorem assembleSite_ok_fields {chrom : String} {pos endP : Int} {refA : String}
    {consA : Dict String} {so : Dict Int} {isnvs : Dict (Dict Frac)}
    {sds : List SampleData} {out : SiteOut}
    (h : assembleSite chrom pos endP refA consA so isnvs sds = .ok out) :
    out.chrom = chrom ∧ out.pos = pos ∧ out.endPos = endP ∧ out.refA = refA ∧
    out.consA = consA ∧ out.offsets = so ∧ out.isnvs = isnvs ∧
    out.consPairs = consPairsOf consA ∧
    out.isnvTuples = sortTuplesDesc (isnvTuplesOf (isnvPairs sds isnvs)) ∧
    out.alleles = pyUnique ([refA] ++
      ((consPairsOf consA).map (·.1)).filter (fun a => a ≠ refA) ++
      (sortTuplesDesc (isnvTuplesOf (isnvPairs sds isnvs))).map (fun x => x.2.2)) ∧
    out.alleles ≠ [] ∧
    out.genos = sds.map (fun sd => (dGet consA sd.name).bind (idxOf out.alleles)) ∧
    out.freqs = sds.map (fun sd => (dGet isnvs sd.name).map (fun m =>
      (out.alleles.drop 1).map (fun a => (dGet m a).getD Frac.zero))) ∧
    out.afFields = out.freqs.map (fun o => match o with
      | none => none
      | some [] => none
      | some (x :: xs) => some (x :: xs)) := by
  simp only [assembleSite] at h
  cases hu : pyUnique ([refA] ++
      (((consPairsOf consA).map (·.1)).filter (fun a => a ≠ refA)) ++
      ((sortTuplesDesc (isnvTuplesOf (isnvPairs sds isnvs))).map (fun x => x.2.2))) with
  | nil => simp only [hu] at h; cases h
  | cons a0 arest =>
    simp only [hu] at h
    injection h with h
    subst h
    refine ⟨rfl, rfl, rfl, rfl, rfl, rfl, rfl, rfl, rfl, by simp [hu], by simp, rfl,
      by simp, by simp⟩

/-! ## Row preprocessing lemmas -/

theorem mapE_ok_mem_fwd {α β : Type} {f : α → Except String β} :
    ∀ {l : List α} {ys : List β}, mapE f l = .ok ys →
      ∀ x ∈ l, ∃ y, f x = .ok y ∧ y ∈ ys
  | [], _, _ => by simp
  | x :: xs, ys, h => by
    intro z hz
    cases hf : f x with
    | error e => rw [mapE, hf] at h; cases h
    | ok y =>
      rw [mapE, hf] at h
      cases hm : mapE f xs with
      | error e => rw [hm] at h; cases h
      | ok ys' =>
        rw [hm] at h
        injection h with h
        subst h
        rcases List.mem_cons.1 hz with hz | hz
        · exact ⟨y, hz ▸ hf, List.mem_cons_self _ _⟩
        · rcases mapE_ok_mem_fwd hm z hz with ⟨y', hy', hmem⟩
          exact ⟨y', hy', List.mem_cons_of_mem _ hmem⟩

theorem prepRow_ok_spec {cm : CMap} {s : String} {r : RawRow} {pr : PRow}
    (h : prepRow cm s r = .ok pr) :
    pr.s_pos = (if startsWithCh r.s_alt 'D' then r.s_pos - 1 else r.s_pos) ∧
    cm.mapAtoB pr.s_pos (-1) = some pr.posRef ∧
    cm.mapAtoB pr.s_pos 1 = some pr.endRef ∧
    pr.sample = s ∧ pr.s_alt = r.s_alt ∧
    pr.allele_counts = sortCountDesc (r.alleles.map (fun x => (x.1, x.2.1 + x.2.2))) := by
  simp only [prepRow] at h
  by_cases hD : startsWithCh r.s_alt 'D' = true
  · rw [if_pos hD] at h
    cases hchk : checkDelAlleles (sortCountDesc (r.alleles.map (fun x => (x.1, x.2.1 + x.2.2)))) with
    | error e => simp only [hchk] at h; cases h
    | ok u =>
      simp only [hchk] at h
      cases hm1 : cm.mapAtoB (r.s_pos - 1) (-1) with
      | none => simp only [hm1] at h; cases h
      | some p =>
        simp only [hm1] at h
        cases hm2 : cm.mapAtoB (r.s_pos - 1) 1 with
        | none => simp only [hm2] at h; cases h
        | some e2 =>
          simp only [hm2] at h
          injection h with h
          subst h
          exact ⟨by simp [hD], by simpa using hm1, by simpa using hm2, rfl, rfl, rfl⟩
  · rw [if_neg hD] at h
    cases hm1 : cm.mapAtoB r.s_pos (-1) with
    | none => simp only [hm1] at h; cases h
    | some p =>
      simp only [hm1] at h
      cases hm2 : cm.mapAtoB r.s_pos 1 with
      | none => simp only [hm2] at h; cases h
      | some e2 =>
        simp only [hm2] at h
        injection h with h
        subst h
        exact ⟨by simp [hD], by simpa using hm1, by simpa using hm2, rfl, rfl, rfl⟩

theorem gatherRows_ok_mem :
    ∀ {sds : List SampleData} {rows : List PRow}, gatherRows sds = .ok rows →
      ∀ sd ∈ sds, ∀ r ∈ sd.rows.filter (fun r => r.chrom = sd.cmap.sChrom),
        ∃ pr, prepRow sd.cmap sd.name r = .ok pr ∧ pr ∈ rows
  | [], _, _ => by simp
  | sd0 :: rest, rows, h => by
    intro sd hsd r hr
    rw [gatherRows] at h
    cases hme : mapE (prepRow sd0.cmap sd0.name)
        (sd0.rows.filter (fun r => r.chrom = sd0.cmap.sChrom)) with
    | error e => rw [hme] at h; cases h
    | ok mine =>
      rw [hme] at h
      cases hg : gatherRows rest with
      | error e => rw [hg] at h; cases h
      | ok others =>
        rw [hg] at h
        injection h with h
        subst h
        rcases List.mem_cons.1 hsd with hsd | hsd
        · subst hsd
          rcases mapE_ok_mem_fwd hme r hr with ⟨pr, hpr, hmem⟩
          exact ⟨pr, hpr, List.mem_append_left _ hmem⟩
        · rcases gatherRows_ok_mem hg sd hsd r hr with ⟨pr, hpr, hmem⟩
          exact ⟨pr, hpr, List.mem_append_right _ hmem⟩

theorem sortRows_mem {rows : List PRow} {pr : PRow} (h : pr ∈ rows) :
    pr ∈ sortRows rows := by
  simpa [sortRows, List.mem_insertionSort] using h

theorem groupRows_mem :
    ∀ {l : List PRow} {r : PRow}, r ∈ l → ∃ p g, (p, g) ∈ groupRows l ∧ r ∈ g
  | [], _, h => by simp at h
  | r0 :: rest, r, h => by
    rcases List.mem_cons.1 h with h | h
    · subst h
      rw [groupRows]
      cases hg : groupRows rest with
      | nil => exact ⟨r.posRef, [r], List.mem_cons_self _ _, List.mem_cons_self _ _⟩
      | cons pg gs =>
        obtain ⟨p, g⟩ := pg
        by_cases hp : r.posRef = p
        · simp only [if_pos hp]
          exact ⟨p, r :: g, List.mem_cons_self _ _, List.mem_cons_self _ _⟩
        · simp only [if_neg hp]
          exact ⟨r.posRef, [r], List.mem_cons_self _ _, List.mem_cons_self _ _⟩
    · rcases groupRows_mem h with ⟨p, g, hmem, hrg⟩
      rw [groupRows]
      cases hg : groupRows rest with
      | nil => rw [hg] at hmem; cases hmem
      | cons pg gs =>
        obtain ⟨p', g'⟩ := pg
        rw [hg] at hmem
        by_cases hp : r0.posRef = p'
        · simp only [if_pos hp]
          rcases List.mem_cons.1 hmem with hmem | hmem
          · injection hmem with h1 h2
            subst h1
            subst h2
            exact ⟨p, r0 :: g, List.mem_cons_self _ _, List.mem_cons_of_mem _ hrg⟩
          · exact ⟨p, g, List.mem_cons_of_mem _ hmem, hrg⟩
        · simp only [if_neg hp]
          exact ⟨p, g, List.mem_cons_of_mem _ hmem, hrg⟩

theorem extendDel_ok_forall {sds : List SampleData} {row : PRow} :
    ∀ {e : Int} {ac : List (String × Nat)} {e' : Int},
      extendDel sds row e ac = .ok e' →
      ∀ a n, (a, n) ∈ ac → startsWithCh a 'D' = true →
        ∃ dn, parseNat? (pySliceFrom a 1) = some dn ∧
        ∃ sd', findSample sds row.sample = some sd' ∧
        ∃ re, sd'.cmap.mapAtoB (row.s_pos + dn) 1 = some re
  | _, [], _, _ => by simp
  | e, (a0, n0) :: rest, e', h => by
    intro a n hmem hD
    rw [extendDel] at h
    by_cases h0 : startsWithCh a0 'D' = true
    · rw [if_pos h0] at h
      cases hp : parseNat? (pySliceFrom a0 1) with
      | none => simp only [hp] at h; cases h
      | some dn =>
        simp only [hp] at h
        cases hfs : findSample sds row.sample with
        | none => simp only [hfs] at h; cases h
        | some sd' =>
          simp only [hfs] at h
          cases hmap : sd'.cmap.mapAtoB (row.s_pos + dn) 1 with
          | none => simp only [hmap] at h; cases h
          | some re =>
            simp only [hmap] at h
            rcases List.mem_cons.1 hmem with hmem | hmem
            · injection hmem with h1 h2
              subst h1
              exact ⟨dn, hp, sd', rfl, re, hmap⟩
            · rcases extendDel_ok_forall h a n hmem hD with
                ⟨dn₁, hp₁, sd₁, hfs₁, re₁, hmap₁⟩
              exact ⟨dn₁, hp₁, sd₁, by rw [← hfs]; exact hfs₁, re₁, hmap₁⟩
    · rw [if_neg h0] at h
      rcases List.mem_cons.1 hmem with hmem | hmem
      · injection hmem with h1 h2
        subst h1
        exact absurd hD h0
      · exact extendDel_ok_forall h a n hmem hD

theorem computeEnd_ok_forall {sds : List SampleData} :
    ∀ {e : Int} {rows : List PRow} {e' : Int},
      computeEnd sds e rows = .ok e' →
      ∀ row ∈ rows, ∀ a n, (a, n) ∈ row.allele_counts → startsWithCh a 'D' = true →
        ∃ dn, parseNat? (pySliceFrom a 1) = some dn ∧
        ∃ sd', findSample sds row.sample = some sd' ∧
        ∃ re, sd'.cmap.mapAtoB (row.s_pos + dn) 1 = some re
  | _, [], _, _ => by simp
  | e, row0 :: rest, e', h => by
    intro row hrow a n hmem hD
    rw [computeEnd] at h
    cases hed : extendDel sds row0 (max e row0.endRef) row0.allele_counts with
    | error err => rw [hed] at h; cases h
    | ok e1 =>
      rw [hed] at h
      rcases List.mem_cons.1 hrow with hrow | hrow
      · subst hrow
        exact extendDel_ok_forall hed a n hmem hD
      · exact computeEnd_ok_forall h row hrow a n hmem hD

/-! ## `samp_offsets` lemmas -/

theorem buildOffsets_ok_mono :
    ∀ {so : Dict Int} {l : List PRow} {so' : Dict Int},
      buildOffsets so l = .ok so' →
      ∀ (k : String) (v : Int), dGet so k = some v → dGet so' k = some v
  | so, [], so', h => by
    rw [buildOffsets] at h
    injection h with h
    subst h
    exact fun _ _ hv => hv
  | so, row :: rest, so', h => by
    intro k v hv
    rw [buildOffsets] at h
    cases hg : dGet so row.sample with
    | some v0 =>
      simp only [hg] at h
      split at h
      · exact buildOffsets_ok_mono h k v hv
      · cases h
    | none =>
      simp only [hg] at h
      refine buildOffsets_ok_mono h k v ?_
      have hk : k ≠ row.sample := by
        intro he
        rw [he, hg] at hv
        cases hv
      rw [dGet_dInsert_ne _ _ hk]
      exact hv

theorem buildOffsets_ok_lookup :
    ∀ {so : Dict Int} {l : List PRow} {so' : Dict Int},
      buildOffsets so l = .ok so' →
      ∀ r ∈ l, dGet so' r.sample = some r.s_pos
  | _, [], _, _ => by simp
  | so, row :: rest, so', h => by
    intro r hr
    rw [buildOffsets] at h
    cases hg : dGet so row.sample with
    | some v0 =>
      simp only [hg] at h
      split at h
      · rename_i hv0
        rcases List.mem_cons.1 hr with hr | hr
        · subst hr
          exact buildOffsets_ok_mono h _ _ (hv0 ▸ hg)
        · exact buildOffsets_ok_lookup h r hr
      · cases h
    | none =>
      simp only [hg] at h
      rcases List.mem_cons.1 hr with hr | hr
      · subst hr
        exact buildOffsets_ok_mono h _ _ (dGet_dInsert_self _ _ _)
      · exact buildOffsets_ok_lookup h r hr

/-! ## Chromosome / merge-level extraction -/

theorem processChrom_ok_parts {refSeq chrom : String} {sds : List SampleData}
    {outs : List SiteOut} (h : processChrom refSeq chrom sds = .ok outs) :
    ∃ rows, gatherRows sds = .ok rows ∧
      mapE (fun g => processSite refSeq chrom sds g.1 g.2) (groupRows (sortRows rows))
        = .ok outs := by
  unfold processChrom at h
  cases hg : gatherRows sds with
  | error e => simp only [hg] at h; cases h
  | ok rows =>
    simp only [hg] at h
    exact ⟨rows, rfl, h⟩

theorem merge_ok_parts {refChroms : List (String × String)} {outVcf : String}
    {samples : List String} {isnvs : List (List RawRow)}
    {assemblies : List (CMap × String)} {sites : List SiteOut}
    (h : merge_to_vcf refChroms outVcf samples isnvs assemblies = .ok sites) :
    samples.length = isnvs.length ∧ isnvs.length = assemblies.length ∧
    (strEndsWith outVcf ".vcf.gz" = true ∨ strEndsWith outVcf ".vcf" = true) ∧
    ∃ perChrom,
      mapE (fun rc => processChrom rc.2 rc.1 (mkSds samples isnvs assemblies)) refChroms
        = .ok perChrom ∧ sites = perChrom.flatten := by
  unfold merge_to_vcf at h
  by_cases hlen : samples.length = isnvs.length ∧ isnvs.length = assemblies.length
  · rw [if_pos hlen] at h
    by_cases hext : strEndsWith outVcf ".vcf.gz" = true ∨ strEndsWith outVcf ".vcf" = true
    · rw [if_pos hext] at h
      cases hme : mapE (fun rc => processChrom rc.2 rc.1 (mkSds samples isnvs assemblies))
          refChroms with
      | error e => simp only [hme] at h; cases h
      | ok perChrom =>
        simp only [hme] at h
        injection h with h
        exact ⟨hlen.1, hlen.2, hext, perChrom, rfl, h.symm⟩
    · rw [if_neg hext] at h
      cases h
  · rw [if_neg hlen] at h
    cases h

/-- The sites of one processed chromosome each come from `processSite` on a
row group. -/
theorem processChrom_ok_site {refSeq chrom : String} {sds : List SampleData}
    {outs : List SiteOut} (h : processChrom refSeq chrom sds = .ok outs) :
    ∀ o ∈ outs, ∃ pos rows, processSite refSeq chrom sds pos rows = .ok o := by
  intro o ho
  rcases processChrom_ok_parts h with ⟨rows, _, hme⟩
  rcases mapE_ok_mem_rev hme o ho with ⟨g, _, hg⟩
  exact ⟨g.1, g.2, hg⟩

/-- Every site emitted by `merge_to_vcf` comes from `processSite`. -/
theorem merge_ok_site {refChroms : List (String × String)} {outVcf : String}
    {samples : List String} {isnvs : List (List RawRow)}
    {assemblies : List (CMap × String)} {sites : List SiteOut}
    (h : merge_to_vcf refChroms outVcf samples isnvs assemblies = .ok sites) :
    ∀ o ∈ sites, ∃ refSeq chrom pos rows,
      processSite refSeq chrom (mkSds samples isnvs assemblies) pos rows = .ok o := by
  intro o ho
  rcases merge_ok_parts h with ⟨_, _, _, perChrom, hme, hsites⟩
  subst hsites
  rcases List.mem_flatten.1 ho with ⟨outs, houts, homem⟩
  rcases mapE_ok_mem_rev hme outs houts with ⟨rc, _, hrc⟩
  rcases processChrom_ok_site hrc o homem with ⟨pos, rows, hps⟩
  exact ⟨rc.2, rc.1, pos, rows, hps⟩

/-! ## Further structural lemmas -/

theorem sampleISNV_ok_fold {consA : String} {off : Int} {ac : Dict Nat} {m : Dict Frac}
    (h : sampleISNV consA off ac = .ok m) :
    sampleFold consA off (dTotal ac) [] ac = .ok m := by
  unfold sampleISNV at h
  cases hf : sampleFold consA off (dTotal ac) [] ac with
  | error e => simp only [hf] at h; cases h
  | ok m0 =>
    simp only [hf] at h
    split at h
    · cases h
    · injection h with h
      rw [h]

theorem cleanACGT_strUpper : ∀ {s : String}, cleanACGT s = true → strUpper s = s := by
  have key : ∀ l : List Char,
      (l.all fun c => decide (c = 'A' ∨ c = 'C' ∨ c = 'T' ∨ c = 'G')) = true →
      l.map chUpper = l := by
    intro l hl
    induction l with
    | nil => rfl
    | cons c cs ih =>
      simp only [List.all_cons, Bool.and_eq_true] at hl
      have hc : c = 'A' ∨ c = 'C' ∨ c = 'T' ∨ c = 'G' := of_decide_eq_true hl.1
      simp only [List.map_cons, ih hl.2]
      rcases hc with rfl | rfl | rfl | rfl <;> rfl
  intro s h
  cases s with
  | mk data => exact congrArg String.mk (key data h)

theorem buildCons_mem :
    ∀ {sds : List SampleData} {pos endP : Int} {ca0 : Dict String} {so0 : Dict Int}
      {ca : Dict String} {so : Dict Int},
      buildCons pos endP sds ca0 so0 = (ca, so) →
      ∀ s c, dGet ca s = some c →
        dGet ca0 s = some c ∨
        ∃ sd ∈ sds, sd.name = s ∧ cleanACGT c = true ∧ ∃ cs cst,
          sd.cmap.mapBtoA pos (-1) = some cs ∧ sd.cmap.mapBtoA endP 1 = some cst ∧
          c = strUpper (pySlice sd.cons (cs - 1) cst)
  | [], pos, endP, ca0, so0, ca, so, h => by
    rw [buildCons] at h
    injection h with h1 h2
    subst h1
    exact fun s c hc => Or.inl hc
  | sd :: rest, pos, endP, ca0, so0, ca, so, h => by
    intro s c hc
    rw [buildCons] at h
    cases hm1 : sd.cmap.mapBtoA pos (-1) with
    | none =>
      simp only [hm1] at h
      rcases buildCons_mem h s c hc with hin | ⟨sd', hmem, hrest⟩
      · exact Or.inl hin
      · exact Or.inr ⟨sd', List.mem_cons_of_mem _ hmem, hrest⟩
    | some cs =>
      cases hm2 : sd.cmap.mapBtoA endP 1 with
      | none =>
        simp only [hm1, hm2] at h
        rcases buildCons_mem h s c hc with hin | ⟨sd', hmem, hrest⟩
        · exact Or.inl hin
        · exact Or.inr ⟨sd', List.mem_cons_of_mem _ hmem, hrest⟩
      | some cst =>
        simp only [hm1, hm2] at h
        split at h
        · rename_i hclean
          rcases buildCons_mem h s c hc with hin | ⟨sd', hmem, hrest⟩
          · by_cases hs : s = sd.name
            · subst hs
              rw [dGet_dInsert_self] at hin
              injection hin with hin
              subst hin
              exact Or.inr ⟨sd, List.mem_cons_self _ _, rfl, hclean, cs, cst, hm1, hm2, rfl⟩
            · rw [dGet_dInsert_ne _ _ hs] at hin
              exact Or.inl hin
          · exact Or.inr ⟨sd', List.mem_cons_of_mem _ hmem, hrest⟩
        · rcases buildCons_mem h s c hc with hin | ⟨sd', hmem, hrest⟩
          · exact Or.inl hin
          · exact Or.inr ⟨sd', List.mem_cons_of_mem _ hmem, hrest⟩

theorem mem_keys_dInsert_self {α : Type} (d : Dict α) (k : String) (v : α) :
    k ∈ (dInsert d k v).map (·.1) :=
  List.mem_map.2 ⟨(k, v), dGet_mem (dGet_dInsert_self d k v), rfl⟩

theorem mem_keys_dInsert_mono {α : Type} {d : Dict α} {k' : String}
    (h : k' ∈ d.map (·.1)) (k : String) (v : α) :
    k' ∈ (dInsert d k v).map (·.1) := by
  by_cases he : k' = k
  · subst he
    exact mem_keys_dInsert_self d k' v
  · rcases List.mem_map.1 h with ⟨p, hp, hpk⟩
    have : dGet d k' ≠ none := by
      intro hn
      have := dGet_eq_none_of_not_mem (d := d) (k := k')
      rcases Option.eq_none_iff_forall_not_mem.1 hn with _
      have hmem : k' ∈ d.map (·.1) := h
      cases hg : dGet d k' with
      | none =>
        have := dGet_some_of_mem_keys hmem
        rw [hg] at this
        cases this
      | some v0 => rw [hg] at hn; cases hn
    cases hg : dGet d k' with
    | none => exact absurd hg this
    | some v0 =>
      have : dGet (dInsert d k v) k' = some v0 := by
        rw [dGet_dInsert_ne _ _ he, hg]
      exact List.mem_map.2 ⟨(k', v0), dGet_mem this, rfl⟩

theorem histogram_mem_keys {a : String} :
    ∀ {l : List String}, a ∈ l → a ∈ (histogram l).map (·.1) := by
  have key : ∀ (l : List String) (d : Dict Nat),
      (a ∈ l ∨ a ∈ d.map (·.1)) →
      a ∈ (l.foldl (fun d x => dInsert d x ((dGet d x).getD 0 + 1)) d).map (·.1) := by
    intro l
    induction l with
    | nil =>
      intro d h
      rcases h with h | h
      · simp at h
      · simpa using h
    | cons x xs ih =>
      intro d h
      simp only [List.foldl_cons]
      refine ih _ ?_
      rcases h with h | h
      · rcases List.mem_cons.1 h with h | h
        · subst h
          exact Or.inr (mem_keys_dInsert_self _ _ _)
        · exact Or.inl h
      · exact Or.inr (mem_keys_dInsert_mono h _ _)
  intro l hl
  exact key l [] (Or.inl hl)

theorem sampleFold_ok_upper {consA : String} {off : Int} {tot : Nat} :
    ∀ {ac : List (String × Nat)} {m m' : Dict Frac},
      sampleFold consA off tot m ac = .ok m' →
      (∀ p ∈ m, p.1 = strUpper p.1) →
      ∀ p ∈ m', p.1 = strUpper p.1
  | [], m, m', hok, hm => by
    rw [sampleFold] at hok
    injection hok with hok
    subst hok
    exact hm
  | (a, n) :: rest, m, m', hok, hm => by
    rw [sampleFold] at hok
    by_cases h0 : tot = 0
    · rw [dif_pos h0] at hok
      cases hok
    · rw [dif_neg h0] at hok
      cases hd : derive consA off (Frac.ofCounts n tot h0) a with
      | error e => simp only [hd] at hok; cases hok
      | ok a' =>
        simp only [hd] at hok
        split at hok
        · rename_i hup
          refine sampleFold_ok_upper hok ?_
          intro p hp
          rcases mem_dInsert hp with hp | hp
          · exact hm p hp
          · rw [hp]
            exact hup.2
        · cases hok

theorem buildISNVs_ok_upper {rows : List PRow} {consA : Dict String} {so : Dict Int} :
    ∀ {sds : List SampleData} {acc isnvs : Dict (Dict Frac)},
      buildISNVs rows consA so sds acc = .ok isnvs →
      (∀ s c, dGet consA s = some c → strUpper c = c) →
      (∀ s mm, dGet acc s = some mm → ∀ p ∈ mm, p.1 = strUpper p.1) →
      ∀ s mm, dGet isnvs s = some mm → ∀ p ∈ mm, p.1 = strUpper p.1
  | [], acc, isnvs, hok, _, hacc => by
    rw [buildISNVs] at hok
    injection hok with hok
    subst hok
    exact hacc
  | sd :: rest, acc, isnvs, hok, hcons, hacc => by
    rw [buildISNVs] at hok
    cases hca : dGet consA sd.name with
    | none =>
      simp only [hca] at hok
      exact buildISNVs_ok_upper hok hcons hacc
    | some c =>
      simp only [hca] at hok
      split at hok
      · cases hso : dGet so sd.name with
        | none => simp only [hso] at hok; cases hok
        | some off =>
          simp only [hso] at hok
          cases hsi : sampleISNV c off (buildAcounts rows sd.name) with
          | error e => simp only [hsi] at hok; cases hok
          | ok m0 =>
            simp only [hsi] at hok
            refine buildISNVs_ok_upper hok hcons ?_
            intro s' mm hmm
            by_cases hs : s' = sd.name
            · subst hs
              rw [dGet_dInsert_self] at hmm
              injection hmm with hmm
              subst hmm
              exact sampleFold_ok_upper (sampleISNV_ok_fold hsi) (by simp)
            · rw [dGet_dInsert_ne _ _ hs] at hmm
              exact hacc s' mm hmm
      · refine buildISNVs_ok_upper hok hcons ?_
        intro s' mm hmm
        by_cases hs : s' = sd.name
        · subst hs
          rw [dGet_dInsert_self] at hmm
          injection hmm with hmm
          subst hmm
          intro p hp
          rcases List.mem_cons.1 hp with hp | hp
          · rw [hp]
            exact (hcons sd.name c hca).symm
          · simp at hp
        · rw [dGet_dInsert_ne _ _ hs] at hmm
          exact hacc s' mm hmm

/-- Shared fact: a successfully processed site has a non-empty allele
universe headed by the literal (unmodified) reference slice. -/
theorem site_alleles_head {refSeq chrom : String} {sds : List SampleData}
    {pos : Int} {rows : List PRow} {out : SiteOut}
    (h : processSite refSeq chrom sds pos rows = .ok out) :
    out.alleles ≠ [] ∧ out.alleles.head? = some out.refA ∧
    out.refA = pySlice refSeq (pos - 1) out.endPos := by
  rcases processSite_ok_parts h with ⟨endP, so, consA, so2, isnvs, _, _, _, _, hassem⟩
  rcases assembleSite_ok_fields hassem with
    ⟨_, _, hend, hrefA, _, _, _, _, _, halle, hne, _, _, _⟩
  refine ⟨hne, ?_, by rw [hrefA, hend]⟩
  rw [halle, hrefA]
  exact pyUnique_append_head _ _ _

/-! ## Claims -/

/-- C3: a variant row whose alternate-allele token starts with `D` is
anchored at sample-local position `p-1` (one base left of the caller's
reported position `p`) before any coordinate mapping to the reference;
rows with other tokens keep their reported position.  Both coordinate
mappings are applied to the (possibly shifted) position. -/
theorem claim3_deletion_reposition {cm : CMap} {s : String} {r : RawRow} {pr : PRow}
    (h : prepRow cm s r = .ok pr) :
    pr.s_pos = (if startsWithCh r.s_alt 'D' then r.s_pos - 1 else r.s_pos) ∧
    cm.mapAtoB pr.s_pos (-1) = some pr.posRef ∧
    cm.mapAtoB pr.s_pos 1 = some pr.endRef := by
  rcases prepRow_ok_spec h with ⟨h1, h2, h3, _⟩
  exact ⟨h1, h2, h3⟩

/-- Witness for C3: a deletion row (`D1` at position 2, anchored at 1)
and a SNP row (kept at position 1). -/
theorem claim3_deletion_reposition_witness :
    (exPRow4b.s_pos =
        (if startsWithCh exRow4b.s_alt 'D' then exRow4b.s_pos - 1 else exRow4b.s_pos) ∧
      (idCMap "s1c" 1).mapAtoB exPRow4b.s_pos (-1) = some exPRow4b.posRef ∧
      (idCMap "s1c" 1).mapAtoB exPRow4b.s_pos 1 = some exPRow4b.endRef) ∧
    (exPRow1.s_pos =
        (if startsWithCh exRow1.s_alt 'D' then exRow1.s_pos - 1 else exRow1.s_pos) ∧
      (idCMap "s1c" 1).mapAtoB exPRow1.s_pos (-1) = some exPRow1.posRef ∧
      (idCMap "s1c" 1).mapAtoB exPRow1.s_pos 1 = some exPRow1.endRef) :=
  ⟨claim3_deletion_reposition
      (show prepRow (idCMap "s1c" 1) "s1" exRow4b = .ok exPRow4b by decide),
   claim3_deletion_reposition
      (show prepRow (idCMap "s1c" 1) "s1" exRow1 = .ok exPRow1 by decide)⟩

/-- C6: two variant records of the same sample that originate from
different sample-local positions but land in the same reference-position
group make `merge_to_vcf` raise (`NotImplementedError`), aborting the
run — the site is never emitted. -/
theorem claim6_ambiguous_sample_fatal
    (refSeq chrom : String) (sds : List SampleData) (pos : Int) (rows : List PRow)
    (r1 r2 : PRow) (h1 : r1 ∈ rows) (h2 : r2 ∈ rows) (hs : r1.sample = r2.sample)
    (hp : r1.s_pos ≠ r2.s_pos) :
    exceptIsOk (processSite refSeq chrom sds pos rows) = false := by
  cases hps : processSite refSeq chrom sds pos rows with
  | error e => rfl
  | ok out =>
    exfalso
    rcases processSite_ok_parts hps with ⟨_, so, _, _, _, _, hbo, _, _, _⟩
    have e1 := buildOffsets_ok_lookup hbo r1 h1
    have e2 := buildOffsets_ok_lookup hbo r2 h2
    rw [hs] at e1
    rw [e1] at e2
    injection e2 with e2
    exact hp e2

/-- Witness for C6: sample `s` reports variants at sample-local positions
1 and 2 that both map to reference position 1. -/
theorem claim6_ambiguous_sample_fatal_witness :
    exceptIsOk (processSite "G" "ref" [] 1 [exPRowC6a, exPRowC6b]) = false :=
  claim6_ambiguous_sample_fatal "G" "ref" [] 1 [exPRowC6a, exPRowC6b]
    exPRowC6a exPRowC6b (by decide) (by decide) (by decide) (by decide)

/-- C7: when a sample's merged allele counts carry both the
insertion-point marker `i` and the deletion-point marker `d`, the two are
collapsed into a single `i` entry holding the rounded (half-to-even)
average, `d` is removed, all other entries are untouched, the dict total
changes accordingly, and every frequency later computed for this sample
is `count / total` over the *collapsed* dict. -/
theorem claim7_id_collapse (rows : List PRow) (s : String) (ci cd : Nat)
    (hi : dGet (rawAcounts rows s) "i" = some ci)
    (hd : dGet (rawAcounts rows s) "d" = some cd) :
    dGet (buildAcounts rows s) "i" = some (roundHalfEven (ci + cd)) ∧
    dGet (buildAcounts rows s) "d" = none ∧
    (∀ a, a ≠ "i" → a ≠ "d" → dGet (buildAcounts rows s) a = dGet (rawAcounts rows s) a) ∧
    dTotal (buildAcounts rows s) + ci + cd
      = dTotal (rawAcounts rows s) + roundHalfEven (ci + cd) ∧
    (∀ consAllele off m, sampleISNV consAllele off (buildAcounts rows s) = .ok m →
      ∀ p ∈ m, ∃ a n, (a, n) ∈ buildAcounts rows s ∧
        p.2.num = n ∧ p.2.den = (dTotal (buildAcounts rows s) : Int)) := by
  have hb : buildAcounts rows s =
      dDel (dInsert (rawAcounts rows s) "i" (roundHalfEven (ci + cd))) "d" := by
    unfold buildAcounts
    simp only [hi, hd]
  have hid : ("i" : String) ≠ "d" := by decide
  have hdi : ("d" : String) ≠ "i" := by decide
  refine ⟨?_, ?_, ?_, ?_, ?_⟩
  · rw [hb, dGet_dDel_ne _ hid, dGet_dInsert_self]
  · rw [hb, dGet_dDel_self]
  · intro a hai had
    rw [hb, dGet_dDel_ne _ had, dGet_dInsert_ne _ _ hai]
  · have hk := rawAcounts_keys_nodup rows s
    have hk2 := dInsert_keys_nodup "i" (roundHalfEven (ci + cd)) hk
    have t1 := dTotal_dInsert "i" (roundHalfEven (ci + cd)) hk
    have t2 := dTotal_dDel "d" hk2
    rw [hi] at t1
    rw [dGet_dInsert_ne _ _ hdi, hd] at t2
    rw [hb]
    simp only [Option.getD_some] at t1 t2
    omega
  · intro consAllele off m hsi p hp
    have hfold := sampleISNV_ok_fold hsi
    rcases (sampleFold_ok_inv hfold (by simp)).2.2 p hp with hin | hin
    · simp at hin
    · exact hin

/-- Witness for C7: counts `i ↦ 3`, `d ↦ 4` collapse into `i ↦ 4`
(Python `round(3.5)` is 4). -/
theorem claim7_id_collapse_witness :
    dGet (buildAcounts [exPRowC7] "s1") "i" = some (roundHalfEven (3 + 4)) ∧
    dGet (buildAcounts [exPRowC7] "s1") "d" = none ∧
    (∀ a, a ≠ "i" → a ≠ "d" →
      dGet (buildAcounts [exPRowC7] "s1") a = dGet (rawAcounts [exPRowC7] "s1") a) ∧
    dTotal (buildAcounts [exPRowC7] "s1") + 3 + 4
      = dTotal (rawAcounts [exPRowC7] "s1") + roundHalfEven (3 + 4) ∧
    (∀ consAllele off m, sampleISNV consAllele off (buildAcounts [exPRowC7] "s1") = .ok m →
      ∀ p ∈ m, ∃ a n, (a, n) ∈ buildAcounts [exPRowC7] "s1" ∧
        p.2.num = n ∧ p.2.den = (dTotal (buildAcounts [exPRowC7] "s1") : Int)) :=
  claim7_id_collapse [exPRowC7] "s1" 3 4 (by decide) (by decide)

/-- C8: the two configuration checks run before anything else: mismatched
lengths of the samples/isnvs/assemblies lists raise a `LookupError`, and
an output name ending in neither `.vcf` nor `.vcf.gz` raises a
`ValueError`, in that order, for every possible input data set. -/
theorem claim8_config_errors (refChroms : List (String × String)) (outVcf : String)
    (samples : List String) (isnvs : List (List RawRow))
    (assemblies : List (CMap × String)) :
    (¬ (samples.length = isnvs.length ∧ isnvs.length = assemblies.length) →
      merge_to_vcf refChroms outVcf samples isnvs assemblies =
        .error "samples, isnvs, and assemblies must have the same number of elements") ∧
    (samples.length = isnvs.length ∧ isnvs.length = assemblies.length →
      ¬ (strEndsWith outVcf ".vcf.gz" = true ∨ strEndsWith outVcf ".vcf" = true) →
      merge_to_vcf refChroms outVcf samples isnvs assemblies =
        .error "outVcf must end in .vcf or .vcf.gz") := by
  constructor
  · intro h
    unfold merge_to_vcf
    rw [if_neg h]
  · intro h1 h2
    unfold merge_to_vcf
    rw [if_pos h1, if_neg h2]

/-- Witness for C8: a length mismatch and a bad output extension. -/
theorem claim8_config_errors_witness :
    merge_to_vcf [] "out.vcf" ["a"] [] [] =
      .error "samples, isnvs, and assemblies must have the same number of elements" ∧
    merge_to_vcf [] "out.txt" [] [] [] =
      .error "outVcf must end in .vcf or .vcf.gz" :=
  ⟨(claim8_config_errors [] "out.vcf" ["a"] [] []).1 (by decide),
   (claim8_config_errors [] "out.txt" [] [] []).2 (by decide) (by decide)⟩

/-- C9: the undocumented pure-SNP consistency check.  If every derived
allele string of a sample has length 1 but the sample's consensus allele
is not among them, `sampleISNV` raises; consequently, in any run that
completes, every sample whose derived alleles are all single bases has
its consensus among them. -/
theorem claim9_pure_snp_consistency (consAllele : String) (off : Int) (ac : Dict Nat)
    (m : Dict Frac) (refSeq chrom : String) (sds : List SampleData) (pos : Int)
    (rows : List PRow) (out : SiteOut) :
    (sampleFold consAllele off (dTotal ac) [] ac = .ok m →
      (∀ p ∈ m, p.1.length = 1) → dGet m consAllele = none →
      sampleISNV consAllele off ac = .error "Exception") ∧
    (processSite refSeq chrom sds pos rows = .ok out →
      ∀ s mm c, dGet out.isnvs s = some mm → dGet out.consA s = some c →
        (∀ p ∈ mm, p.1.length = 1) → (dGet mm c).isSome) := by
  constructor
  · intro hf hall hnone
    simp only [sampleISNV, hf]
    rw [if_pos ⟨List.all_eq_true.2 (fun p hp => decide_eq_true (hall p hp)),
      by rw [hnone]; rfl⟩]
  · intro h s mm c hmm hc hall
    rcases processSite_ok_parts h with ⟨_, _, consA, so2, isnvs, _, _, _, hbi, hassem⟩
    rcases assembleSite_ok_fields hassem with ⟨_, _, _, _, hconsA, _, hisnvs, _⟩
    rw [hisnvs] at hmm
    rw [hconsA] at hc
    exact buildISNVs_ok_consMem hbi
      (by intro s' m' hm'; simp [dGet] at hm') s mm hmm c hc hall

/-- Witness for C9: a sample with derived allele `A` (length 1) and
consensus `C` raises; in the completed run on `exRow1` the consensus `G`
is present in the sample's derived map. -/
theorem claim9_pure_snp_consistency_witness :
    sampleISNV "C" 0 [("A", 5)] = .error "Exception" ∧
    (dGet [("G", (⟨2, 4, by decide⟩ : Frac)), ("A", ⟨1, 4, by decide⟩),
      ("C", ⟨1, 4, by decide⟩)] "G").isSome :=
  ⟨(claim9_pure_snp_consistency "C" 0 [("A", 5)] [("A", ⟨5, 5, by decide⟩)]
      "G" "ref" [exSample1] 1 [exPRow1] exSite1).1 (by decide) (by decide) (by decide),
   (claim9_pure_snp_consistency "C" 0 [("A", 5)] [("A", ⟨5, 5, by decide⟩)]
      "G" "ref" [exSample1] 1 [exPRow1] exSite1).2 (by decide) "s1"
      [("G", ⟨2, 4, by decide⟩), ("A", ⟨1, 4, by decide⟩), ("C", ⟨1, 4, by decide⟩)]
      "G" (by decide) (by decide) (by decide)⟩

/-- C2: for every merged site the allele universe is non-empty and its
first element is the literal reference slice over the site's reference
interval; in particular every site's universe contains the reference
allele.  Stated both for one site (`processSite`, where the slice is
visible) and for every site emitted by a whole `merge_to_vcf` run. -/
theorem claim2_ref_allele_first (refSeq chrom : String) (sds : List SampleData)
    (pos : Int) (rows : List PRow) (out : SiteOut)
    (refChroms : List (String × String)) (outVcf : String) (samples : List String)
    (isnvFiles : List (List RawRow)) (assemblies : List (CMap × String))
    (sites : List SiteOut) :
    (processSite refSeq chrom sds pos rows = .ok out →
      out.alleles ≠ [] ∧ out.alleles.head? = some out.refA ∧
      out.refA = pySlice refSeq (pos - 1) out.endPos) ∧
    (merge_to_vcf refChroms outVcf samples isnvFiles assemblies = .ok sites →
      ∀ o ∈ sites, o.alleles ≠ [] ∧ o.alleles.head? = some o.refA) := by
  constructor
  · exact fun h => site_alleles_head h
  · intro h o ho
    rcases merge_ok_site h o ho with ⟨rs, ch, p, rws, hps⟩
    rcases site_alleles_head hps with ⟨h1, h2, _⟩
    exact ⟨h1, h2⟩

/-- Witness for C2 at the `exRow1` run. -/
theorem claim2_ref_allele_first_witness :
    (exSite1.alleles ≠ [] ∧ exSite1.alleles.head? = some exSite1.refA ∧
      exSite1.refA = pySlice "G" (1 - 1) exSite1.endPos) ∧
    (exSite1.alleles ≠ [] ∧ exSite1.alleles.head? = some exSite1.refA) :=
  ⟨(claim2_ref_allele_first "G" "ref" [exSample1] 1 [exPRow1] exSite1
      [("ref", "G")] "out.vcf" ["s1"] [[exRow1]] [(idCMap "s1c" 1, "G")] [exSite1]).1
      (by decide),
   (claim2_ref_allele_first "G" "ref" [exSample1] 1 [exPRow1] exSite1
      [("ref", "G")] "out.vcf" ["s1"] [[exRow1]] [(idCMap "s1c" 1, "G")] [exSite1]).2
      (by decide) exSite1 (by decide)⟩

/-- C1 counterexample: at this single-sample site the three intrahost-only
alleles are `G` (frequency 2/4) and the tied pair `A`, `C` (frequency 1/4
each, one sample each).  The claim's ordering — ties broken by *ascending*
allele string — prescribes the universe `["G", "A", "C"]`
(reference `G` first, then `A` before `C`), but
`reversed(sorted(alleles_isnv2))` reverses an ascending sort, so equal
`(n_samples, n_reads)` keys come out in *descending* string order:
the code emits `["G", "C", "A"]`. -/
theorem claim1_allele_order_counterexample :
    merge_to_vcf [("ref", "G")] "out.vcf" ["s1"] [[exRow1]] [(idCMap "s1c" 1, "G")]
      = .ok [exSite1] ∧
    exSite1.alleles = ["G", "C", "A"] ∧
    (["G", "C", "A"] : List String) ≠ ["G", "A", "C"] :=
  ⟨by decide, by decide, by decide⟩

/-- C1 (amended): the allele universe is the deduplication (first
occurrences) of: the reference allele; then the distinct consensus
alleles sorted stably by descending sample count (so ties keep encounter
order: sortedness, permutation and the per-count filter stability below
characterise the stable sort completely); then the intrahost alleles in
descending order of the key (number of carrying samples, summed
frequency, allele string) — so ties in the numeric key are broken by
*descending* (not ascending) allele string. -/
theorem claim1_allele_ordering {refSeq chrom : String} {sds : List SampleData}
    {pos : Int} {rows : List PRow} {out : SiteOut}
    (h : processSite refSeq chrom sds pos rows = .ok out) :
    out.alleles = pyUnique ([out.refA] ++
      (out.consPairs.map (·.1)).filter (fun a => a ≠ out.refA) ++
      out.isnvTuples.map (fun x => x.2.2)) ∧
    List.Sorted (fun x y : String × Nat => y.2 ≤ x.2) out.consPairs ∧
    out.consPairs.Perm (histogram (out.consA.map (·.2))) ∧
    (∀ c : Nat, out.consPairs.filter (fun p => p.2 = c) =
      (histogram (out.consA.map (·.2))).filter (fun p => p.2 = c)) ∧
    List.Sorted (fun x y => tripLe y x) out.isnvTuples ∧
    out.isnvTuples.Perm (isnvTuplesOf (isnvPairs sds out.isnvs)) := by
  rcases processSite_ok_parts h with ⟨endP, so, consA, so2, isnvs, _, _, _, _, hassem⟩
  rcases assembleSite_ok_fields hassem with
    ⟨_, _, _, hrefA, hconsA, _, hisnvs, hcps, htups, halle, _, _, _, _⟩
  refine ⟨?_, ?_, ?_, ?_, ?_, ?_⟩
  · rw [halle, hrefA, hcps, htups]
  · rw [hcps]
    exact List.sorted_insertionSort _ _
  · rw [hcps, hconsA]
    exact List.perm_insertionSort _ _
  · intro c
    rw [hcps, hconsA]
    exact filter_insertionSort_count c _
  · rw [htups]
    exact List.pairwise_reverse.mpr (List.sorted_insertionSort tripLe _)
  · rw [htups, hisnvs]
    exact (List.reverse_perm _).trans (List.perm_insertionSort _ _)

/-- Witness for C1 (amended) at the `exRow1` site. -/
theorem claim1_allele_ordering_witness :
    exSite1.alleles = pyUnique ([exSite1.refA] ++
      (exSite1.consPairs.map (·.1)).filter (fun a => a ≠ exSite1.refA) ++
      exSite1.isnvTuples.map (fun x => x.2.2)) ∧
    List.Sorted (fun x y : String × Nat => y.2 ≤ x.2) exSite1.consPairs ∧
    exSite1.consPairs.filter (fun p => p.2 = 1) =
      (histogram (exSite1.consA.map (·.2))).filter (fun p => p.2 = 1) ∧
    List.Sorted (fun x y => tripLe y x) exSite1.isnvTuples := by
  have hmain := claim1_allele_ordering
    (show processSite "G" "ref" [exSample1] 1 [exPRow1] = .ok exSite1 by decide)
  exact ⟨hmain.1, hmain.2.1, hmain.2.2.2.1 1, hmain.2.2.2.2.1⟩

/-- C4: an endpoint of a variant record mapping to no reference position
(either rounding side), or a deletion allele whose sample-local endpoint
maps to no reference position, aborts the whole chromosome run with an
exception — no per-site recovery. -/
theorem claim4_unmappable_fatal (refSeq chrom : String) (sds : List SampleData) :
    (∀ sd ∈ sds, ∀ r ∈ sd.rows, r.chrom = sd.cmap.sChrom →
      (sd.cmap.mapAtoB (if startsWithCh r.s_alt 'D' then r.s_pos - 1 else r.s_pos) (-1)
          = none ∨
       sd.cmap.mapAtoB (if startsWithCh r.s_alt 'D' then r.s_pos - 1 else r.s_pos) 1
          = none) →
      exceptIsOk (processChrom refSeq chrom sds) = false) ∧
    (∀ sd ∈ sds, ∀ r ∈ sd.rows, r.chrom = sd.cmap.sChrom →
      ∀ pr, prepRow sd.cmap sd.name r = .ok pr →
      ∀ a n, (a, n) ∈ pr.allele_counts → startsWithCh a 'D' = true →
      ∀ dn, parseNat? (pySliceFrom a 1) = some dn →
      ∀ sd', findSample sds pr.sample = some sd' →
      sd'.cmap.mapAtoB (pr.s_pos + dn) 1 = none →
      exceptIsOk (processChrom refSeq chrom sds) = false) := by
  constructor
  · intro sd hsd r hr hchrom hnone
    cases hpc : processChrom refSeq chrom sds with
    | error e => rfl
    | ok outs =>
      exfalso
      rcases processChrom_ok_parts hpc with ⟨rows, hg, _⟩
      have hrf : r ∈ sd.rows.filter (fun r => r.chrom = sd.cmap.sChrom) :=
        List.mem_filter.2 ⟨hr, by simp [hchrom]⟩
      rcases gatherRows_ok_mem hg sd hsd r hrf with ⟨pr, hpr, _⟩
      rcases prepRow_ok_spec hpr with ⟨hpos, hm1, hm2, _⟩
      rw [hpos] at hm1 hm2
      rcases hnone with hnone | hnone
      · rw [hnone] at hm1
        cases hm1
      · rw [hnone] at hm2
        cases hm2
  · intro sd hsd r hr hchrom pr hpr a n hmem hD dn hdn sd' hfs hnone
    cases hpc : processChrom refSeq chrom sds with
    | error e => rfl
    | ok outs =>
      exfalso
      rcases processChrom_ok_parts hpc with ⟨rows, hg, hme⟩
      have hrf : r ∈ sd.rows.filter (fun r => r.chrom = sd.cmap.sChrom) :=
        List.mem_filter.2 ⟨hr, by simp [hchrom]⟩
      rcases gatherRows_ok_mem hg sd hsd r hrf with ⟨pr₀, hpr₀, hmemrows⟩
      rw [hpr] at hpr₀
      injection hpr₀ with hpr₀
      subst hpr₀
      rcases groupRows_mem (sortRows_mem hmemrows) with ⟨p, g, hgmem, hprg⟩
      rcases mapE_ok_forall hme (p, g) hgmem with ⟨site, hsite⟩
      rcases processSite_ok_parts hsite with ⟨endP, _, _, _, _, hce, _⟩
      rcases computeEnd_ok_forall hce pr hprg a n hmem hD with
        ⟨dn₁, hdn₁, sd₁, hfs₁, re, hmap⟩
      rw [hdn] at hdn₁
      injection hdn₁ with e1
      subst e1
      rw [hfs] at hfs₁
      injection hfs₁ with e2
      subst e2
      rw [hnone] at hmap
      cases hmap

/-- Witness for C4: a SNP row at unmappable position 5, and a deletion
row whose deletion endpoint (position 2) maps outside the length-1
reference. -/
theorem claim4_unmappable_fatal_witness :
    exceptIsOk (processChrom "G" "ref" [exSample4a]) = false ∧
    exceptIsOk (processChrom "G" "ref" [exSample4b]) = false :=
  ⟨(claim4_unmappable_fatal "G" "ref" [exSample4a]).1 exSample4a
      (List.mem_singleton.2 rfl) exRow4a (by decide) (by decide) (by decide),
   (claim4_unmappable_fatal "G" "ref" [exSample4b]).2 exSample4b
      (List.mem_singleton.2 rfl) exRow4b (by decide) (by decide) exPRow4b (by decide)
      "D1" 5 (by decide) (by decide) 1 (by decide) exSample4b rfl (by decide)⟩

/-- C5 counterexample: at a site whose allele universe has size 1, a
sample *with* intrahost data (its `iSNVs` entry is present) is emitted
with the AF field `.`, because the empty frequency vector joins to the
empty string, which the `... or '.'` idiom replaces by `.` — the claim
reserves `.` for samples with no intrahost data, and its "exactly
universe-size minus one comma-separated entries" does not hold of the
emitted `.` field. -/
theorem claim5_counterexample :
    merge_to_vcf [("ref", "A")] "out.vcf" ["s1"] [[exRow2]] [(idCMap "s1c" 1, "A")]
      = .ok [exSite2] ∧
    dGet exSite2.isnvs "s1" = some [("A", ⟨5, 5, by decide⟩)] ∧
    exSite2.freqs = [some []] ∧
    exSite2.afFields = [none] ∧
    exSite2.alleles.length = 1 :=
  ⟨by decide, by decide, by decide, by decide, by decide⟩

/-- C5 (amended): per sample, the frequency data is `None` (emitted `.`)
exactly for samples absent from `iSNVs`; a present sample's vector is
aligned to the non-reference alleles in universe order, has exactly
(universe size − 1) entries, all non-negative, summing to at most 1; the
emitted AF field equals that vector except that the *empty* vector (size-1
universe) is also emitted as `.`. -/
theorem claim5_frequency_vectors {refSeq chrom : String} {sds : List SampleData}
    {pos : Int} {rows : List PRow} {out : SiteOut}
    (h : processSite refSeq chrom sds pos rows = .ok out) :
    out.freqs = sds.map (fun sd => (dGet out.isnvs sd.name).map (fun m =>
      (out.alleles.drop 1).map (fun a => (dGet m a).getD Frac.zero))) ∧
    (∀ o ∈ out.freqs, ∀ l, o = some l →
      l.length + 1 = out.alleles.length ∧
      (∀ q ∈ l, 0 ≤ q.val) ∧ (l.map Frac.val).sum ≤ 1) ∧
    out.afFields = out.freqs.map (fun o => match o with
      | none => none
      | some [] => none
      | some (x :: xs) => some (x :: xs)) := by
  rcases processSite_ok_parts h with ⟨endP, so, consA, so2, isnvs, _, _, _, hbi, hassem⟩
  rcases assembleSite_ok_fields hassem with
    ⟨_, _, _, _, _, _, hisnvs, _, _, halle, hne, _, hfreqs, hafF⟩
  have hgood : ∀ s m, dGet isnvs s = some m → Pgood m :=
    buildISNVs_ok_good hbi (by intro s m hm; simp [dGet] at hm)
  refine ⟨by rw [hfreqs, hisnvs], ?_, hafF⟩
  intro o ho l hol
  rw [hfreqs] at ho
  rcases List.mem_map.1 ho with ⟨sd, _, hmap⟩
  rw [hol] at hmap
  rcases Option.map_eq_some'.1 hmap with ⟨m, hm, hfnm⟩
  have hP := hgood sd.name m hm
  subst hfnm
  refine ⟨?_, ?_, ?_⟩
  · have hpos : 0 < out.alleles.length := List.length_pos.2 hne
    simp only [List.length_map, List.length_drop]
    omega
  · intro q hq
    rcases List.mem_map.1 hq with ⟨a, _, hqa⟩
    subst hqa
    cases hg : dGet m a with
    | none => simp [hg, Frac.zero_val]
    | some v =>
      have := hP.1 (a, v) (dGet_mem hg)
      simpa [hg] using this
  · have hnd : (out.alleles.drop 1).Nodup := by
      have h1 : out.alleles.Nodup := by
        rw [halle]
        exact nodup_pyUnique _
      exact List.Nodup.sublist (List.drop_sublist 1 _) h1
    calc (((out.alleles.drop 1).map (fun a => (dGet m a).getD Frac.zero)).map Frac.val).sum
        ≤ vsumQ m := lookup_vals_sum_le hnd hP.1
      _ ≤ 1 := hP.2

/-- Witness for C5 (amended) at the `exRow1` site. -/
theorem claim5_frequency_vectors_witness :
    exSite1.freqs = [exSample1].map (fun sd => (dGet exSite1.isnvs sd.name).map (fun m =>
      (exSite1.alleles.drop 1).map (fun a => (dGet m a).getD Frac.zero))) ∧
    ([(⟨1, 4, by decide⟩ : Frac), ⟨1, 4, by decide⟩].length + 1 = exSite1.alleles.length ∧
      (∀ q ∈ [(⟨1, 4, by decide⟩ : Frac), ⟨1, 4, by decide⟩], 0 ≤ q.val) ∧
      ([(⟨1, 4, by decide⟩ : Frac), ⟨1, 4, by decide⟩].map Frac.val).sum ≤ 1) := by
  have hmain := claim5_frequency_vectors
    (show processSite "G" "ref" [exSample1] 1 [exPRow1] = .ok exSite1 by decide)
  exact ⟨hmain.1, hmain.2.1 (some [⟨1, 4, by decide⟩, ⟨1, 4, by decide⟩])
    (by decide) [⟨1, 4, by decide⟩, ⟨1, 4, by decide⟩] rfl⟩

/-- C10: the reference allele is the verbatim reference slice (never
case-normalised), every consensus allele is the upper-cased consensus
slice of its sample, every derived allele string is upper-case, and
consequently over a lower-case reference a sample whose consensus equals
the reference only case-insensitively contributes the upper-case string
as a distinct non-reference allele of the universe. -/
theorem claim10_case_sensitivity {refSeq chrom : String} {sds : List SampleData}
    {pos : Int} {rows : List PRow} {out : SiteOut} (s : String)
    (h : processSite refSeq chrom sds pos rows = .ok out) :
    out.refA = pySlice refSeq (pos - 1) out.endPos ∧
    (∀ s' c, dGet out.consA s' = some c → ∃ sd ∈ sds, sd.name = s' ∧ ∃ cs cst,
        sd.cmap.mapBtoA pos (-1) = some cs ∧ sd.cmap.mapBtoA out.endPos 1 = some cst ∧
        c = strUpper (pySlice sd.cons (cs - 1) cst)) ∧
    (∀ s' mm, dGet out.isnvs s' = some mm → ∀ p ∈ mm, p.1 = strUpper p.1) ∧
    (dGet out.consA s = some (strUpper out.refA) → out.refA ≠ strUpper out.refA →
      out.alleles.head? = some out.refA ∧ strUpper out.refA ∈ out.alleles) := by
  have hhead := site_alleles_head h
  rcases processSite_ok_parts h with ⟨endP, so, consA, so2, isnvs, _, _, hbc, hbi, hassem⟩
  rcases assembleSite_ok_fields hassem with
    ⟨_, _, hend, hrefA, hconsA, _, hisnvs, hcps, _, halle, _, _, _, _⟩
  have hconsUp : ∀ s0 c0, dGet consA s0 = some c0 → strUpper c0 = c0 := by
    intro s0 c0 hc0
    rcases buildCons_mem hbc s0 c0 hc0 with hl | ⟨_, _, _, hclean, _⟩
    · simp [dGet] at hl
    · exact cleanACGT_strUpper hclean
  refine ⟨hhead.2.2, ?_, ?_, ?_⟩
  · intro s' c hc
    rw [hconsA] at hc
    rw [hend]
    rcases buildCons_mem hbc s' c hc with hl | hfound
    · simp [dGet] at hl
    · rcases hfound with ⟨sd, hmem, hname, _, cs, cst, hm1, hm2, heq⟩
      exact ⟨sd, hmem, hname, cs, cst, hm1, hm2, heq⟩
  · intro s' mm hmm
    rw [hisnvs] at hmm
    exact buildISNVs_ok_upper hbi hconsUp
      (by intro s0 mm0 hm0; simp [dGet] at hm0) s' mm hmm
  · intro hcu hne'
    refine ⟨hhead.2.1, ?_⟩
    rw [hconsA] at hcu
    have hval : strUpper out.refA ∈ consA.map (·.2) :=
      List.mem_map.2 ⟨(s, strUpper out.refA), dGet_mem hcu, rfl⟩
    have hkey := histogram_mem_keys hval
    rcases List.mem_map.1 hkey with ⟨p, hp, hpfst⟩
    have hp2 : p ∈ consPairsOf consA := by
      unfold consPairsOf
      exact (List.mem_insertionSort _).2 hp
    have hmid : strUpper out.refA ∈
        ((consPairsOf consA).map (·.1)).filter
          (fun a => a ≠ pySlice refSeq (pos - 1) endP) := by
      refine List.mem_filter.2 ⟨List.mem_map.2 ⟨p, hp2, hpfst⟩, ?_⟩
      have : strUpper out.refA ≠ pySlice refSeq (pos - 1) endP := by
        rw [← hrefA]
        exact Ne.symm hne'
      simpa using this
    rw [halle, mem_pyUnique]
    exact List.mem_append_left _ (List.mem_append_right _ hmid)

/-- Witness for C10: reference `a` (lower-case), consensus `A`; the site
keeps `a` as its reference allele and lists `A` as a distinct allele. -/
theorem claim10_case_sensitivity_witness :
    exSite3.refA = pySlice "a" (1 - 1) exSite3.endPos ∧
    exSite3.alleles.head? = some exSite3.refA ∧
    strUpper exSite3.refA ∈ exSite3.alleles := by
  have hmain := claim10_case_sensitivity "s1"
    (show processSite "a" "ref" [exSample2] 1 [exPRow2] = .ok exSite3 by decide)
  exact ⟨hmain.1, (hmain.2.2.2 (by decide) (by decide)).1,
    (hmain.2.2.2 (by decide) (by decide)).2⟩

end Intrahost
